import Mathlib

/-!
Shallow embedding of the image-tagging reconciliation core:

* `src/image_analyzer.py` — tag extraction from model text and tag normalization
  (`_extract_json_from_text`, the tag-collection and normalization steps of
  `analyze_image`),
* `src/db_manager.py` — the SQLite-backed registry and accumulator
  (`add_image`, `add_tags`, `get_image_tags`, `get_image_by_hash`),
* `src/image_pipeline.py` — the per-image orchestration (`process_image`,
  `get_hash_from_filename`).

Python strings are modelled over ASCII text (the inputs in scope); machine
integers do not overflow in range (SQLite INTEGER ids and counts are modelled
as `Nat`).  The SQLite tables are modelled as lists of rows in insertion
order, with AUTOINCREMENT modelled by explicit next-id counters.
-/

namespace ImageTags

/-! ### Python string primitives (ASCII model)

`str.title()` (used by `analyze_image` at `image_analyzer.py:156`) uppercases
a letter whose preceding character is not a cased letter and lowercases every
other letter; uncased characters pass through unchanged and end the current
word.  The model covers ASCII letters, which are the cased characters of the
tag strings in scope. -/

def isUpperA (c : Char) : Bool := decide (65 ≤ c.toNat ∧ c.toNat ≤ 90)

def isLowerA (c : Char) : Bool := decide (97 ≤ c.toNat ∧ c.toNat ≤ 122)

def isCasedA (c : Char) : Bool := isUpperA c || isLowerA c

def toLowerA (c : Char) : Char :=
  if 65 ≤ c.toNat ∧ c.toNat ≤ 90 then Char.ofNat (c.toNat + 32) else c

def toUpperA (c : Char) : Char :=
  if 97 ≤ c.toNat ∧ c.toNat ≤ 122 then Char.ofNat (c.toNat - 32) else c

def titleChars : List Char → Bool → List Char
  | [], _ => []
  | c :: cs, prevCased =>
    if isCasedA c then
      (if prevCased then toLowerA c else toUpperA c) :: titleChars cs true
    else
      c :: titleChars cs false

/-- Python `s.title()`. -/
def pyTitle (s : String) : String := ⟨titleChars s.data false⟩

/-- Python `tag.replace('_', ' ')` (`image_analyzer.py:154`): a single-character
pattern replaced by a single character is a character map. -/
def replaceUnderscore (s : String) : String :=
  ⟨s.data.map (fun c => if c = '_' then ' ' else c)⟩

/-- Tag normalization exactly as `ImageAnalyzer.analyze_image` performs it
(`image_analyzer.py:154-156`): replace underscores with spaces, then title
case.  The source applies no other step. -/
def normalizeTag (s : String) : String := pyTitle (replaceUnderscore s)

/-- ASCII whitespace as Python `str.strip()` removes it. -/
def isPySpace (c : Char) : Bool :=
  c = ' ' || c = '\t' || c = '\n' || c = '\r' || c = Char.ofNat 11 || c = Char.ofNat 12

def trimChars (cs : List Char) : List Char :=
  ((cs.dropWhile isPySpace).reverse.dropWhile isPySpace).reverse

/-- The normalizer as the specification sentence words it (replace underscores
with spaces, title case, then trim surrounding whitespace) — stated only to be
compared with `normalizeTag`, the function the source implements. -/
def specNormalizeTag (s : String) : String := ⟨trimChars (pyTitle (replaceUnderscore s)).data⟩

/-! ### JSON values and `json.loads`

`JValue` mirrors the values `json.loads` can return for the fragments in
scope; numbers keep their lexeme (no claim compares numeric values).  Object
member lists keep every parsed pair in order; Python dict semantics (last
duplicate key wins) live in the lookup `tagsArr`/`acceptsTags`. -/

inductive JValue where
  | null : JValue
  | bool (b : Bool) : JValue
  | num (lexeme : String) : JValue
  | str (s : String) : JValue
  | arr (elems : List JValue) : JValue
  | obj (members : List (String × JValue)) : JValue

mutual

/-- Structural equality of JSON values (Python `==` on parsed values, the
relation under which a `set` of tags identifies duplicates). -/
def beqJ : JValue → JValue → Bool
  | .null, .null => true
  | .bool x, .bool y => x == y
  | .num x, .num y => x == y
  | .str x, .str y => x == y
  | .arr xs, .arr ys => beqJList xs ys
  | .obj xs, .obj ys => beqJMembers xs ys
  | _, _ => false

def beqJList : List JValue → List JValue → Bool
  | [], [] => true
  | x :: xs, y :: ys => beqJ x y && beqJList xs ys
  | _, _ => false

def beqJMembers : List (String × JValue) → List (String × JValue) → Bool
  | [], [] => true
  | (k1, v1) :: xs, (k2, v2) :: ys => k1 == k2 && beqJ v1 v2 && beqJMembers xs ys
  | _, _ => false

end

/-- JSON whitespace as the Python `json` scanner skips it. -/
def jsonWs (c : Char) : Bool := c = ' ' || c = '\t' || c = '\n' || c = '\r'

def skipWs (cs : List Char) : List Char := cs.dropWhile jsonWs

def isDigitA (c : Char) : Bool := decide (48 ≤ c.toNat ∧ c.toNat ≤ 57)

def hexVal (c : Char) : Option Nat :=
  if 48 ≤ c.toNat ∧ c.toNat ≤ 57 then some (c.toNat - 48)
  else if 97 ≤ c.toNat ∧ c.toNat ≤ 102 then some (c.toNat - 87)
  else if 65 ≤ c.toNat ∧ c.toNat ≤ 70 then some (c.toNat - 55)
  else none

def hex4 (a b c d : Char) : Option Nat :=
  match hexVal a, hexVal b, hexVal c, hexVal d with
  | some x, some y, some z, some w => some (((x * 16 + y) * 16 + z) * 16 + w)
  | _, _, _, _ => none

/-- JSON string body after the opening quote, per the strict Python `json`
scanner: the recognized escapes are exactly `\" \\ \/ \b \f \n \r \t \uXXXX`;
any other escape or a raw control character (codepoint below 0x20) is a
`JSONDecodeError`.  A `\uXXXX` high surrogate followed by a low surrogate
combines into one character; the inputs in scope contain no lone surrogates
(which Lean `Char` cannot carry). -/
def parseJStringGo : Nat → List Char → Option (List Char × List Char)
  | 0, _ => none
  | fuel + 1, input =>
    match input with
    | [] => none
    | '"' :: rest => some ([], rest)
    | '\\' :: '"' :: r => (fun p => ('"' :: p.1, p.2)) <$> parseJStringGo fuel r
    | '\\' :: '\\' :: r => (fun p => ('\\' :: p.1, p.2)) <$> parseJStringGo fuel r
    | '\\' :: '/' :: r => (fun p => ('/' :: p.1, p.2)) <$> parseJStringGo fuel r
    | '\\' :: 'b' :: r => (fun p => (Char.ofNat 8 :: p.1, p.2)) <$> parseJStringGo fuel r
    | '\\' :: 'f' :: r => (fun p => (Char.ofNat 12 :: p.1, p.2)) <$> parseJStringGo fuel r
    | '\\' :: 'n' :: r => (fun p => ('\n' :: p.1, p.2)) <$> parseJStringGo fuel r
    | '\\' :: 'r' :: r => (fun p => (Char.ofNat 13 :: p.1, p.2)) <$> parseJStringGo fuel r
    | '\\' :: 't' :: r => (fun p => ('\t' :: p.1, p.2)) <$> parseJStringGo fuel r
    | '\\' :: 'u' :: a :: b :: c :: d :: r =>
      (match hex4 a b c d with
       | none => none
       | some h =>
         if 0xD800 ≤ h ∧ h ≤ 0xDBFF then
           match r with
           | '\\' :: 'u' :: a2 :: b2 :: c2 :: d2 :: r2 =>
             (match hex4 a2 b2 c2 d2 with
              | some l =>
                if 0xDC00 ≤ l ∧ l ≤ 0xDFFF then
                  (fun p => (Char.ofNat (0x10000 + (h - 0xD800) * 0x400 + (l - 0xDC00)) :: p.1, p.2)) <$>
                    parseJStringGo fuel r2
                else (fun p => (Char.ofNat h :: p.1, p.2)) <$> parseJStringGo fuel r
              | none => (fun p => (Char.ofNat h :: p.1, p.2)) <$> parseJStringGo fuel r)
           | _ => (fun p => (Char.ofNat h :: p.1, p.2)) <$> parseJStringGo fuel r
         else (fun p => (Char.ofNat h :: p.1, p.2)) <$> parseJStringGo fuel r)
    | '\\' :: _ => none
    | c :: r => if c.toNat < 32 then none else (fun p => (c :: p.1, p.2)) <$> parseJStringGo fuel r

/-- Entry point with enough fuel for the whole input (every step of
`parseJStringGo` consumes at least one character). -/
def parseJString (cs : List Char) : Option (List Char × List Char) :=
  parseJStringGo (cs.length + 1) cs

/-- Longest digit prefix. -/
def takeDigits : List Char → List Char × List Char
  | [] => ([], [])
  | c :: cs =>
    if isDigitA c then
      let p := takeDigits cs
      (c :: p.1, p.2)
    else ([], c :: cs)

/-- Integer part of a JSON number: `0` or a nonzero digit followed by digits. -/
def parseIntPart : List Char → Option (List Char × List Char)
  | [] => none
  | c :: cs =>
    if c = '0' then some (['0'], cs)
    else if isDigitA c then
      let p := takeDigits cs
      some (c :: p.1, p.2)
    else none

def parseFracPart : List Char → List Char × List Char
  | '.' :: c :: cs =>
    if isDigitA c then
      let p := takeDigits cs
      ('.' :: c :: p.1, p.2)
    else ([], '.' :: c :: cs)
  | cs => ([], cs)

def parseExpPart : List Char → List Char × List Char
  | e :: rest =>
    if e = 'e' ∨ e = 'E' then
      match rest with
      | s :: c :: cs =>
        if (s = '+' ∨ s = '-') ∧ isDigitA c then
          let p := takeDigits cs
          (e :: s :: c :: p.1, p.2)
        else if isDigitA s then
          let p := takeDigits (c :: cs)
          (e :: s :: p.1, p.2)
        else ([], e :: s :: c :: cs)
      | [s] =>
        if isDigitA s then ([e, s], []) else ([], [e, s])
      | [] => ([], [e])
    else ([], e :: rest)
  | [] => ([], [])

/-- JSON number per the Python `json` regex
`-?(0|[1-9]\d*)(\.\d+)?([eE][+-]?\d+)?`; the lexeme is kept verbatim. -/
def parseNumber (cs : List Char) : Option (List Char × List Char) :=
  match cs with
  | '-' :: rest =>
    match parseIntPart rest with
    | none => none
    | some (ip, r1) =>
      let f := parseFracPart r1
      let e := parseExpPart f.2
      some ('-' :: ip ++ f.1 ++ e.1, e.2)
  | _ =>
    match parseIntPart cs with
    | none => none
    | some (ip, r1) =>
      let f := parseFracPart r1
      let e := parseExpPart f.2
      some (ip ++ f.1 ++ e.1, e.2)

mutual

/-- One JSON value starting at the head of the input (whitespace already
skipped by the caller), returning the remaining input.  Fuel bounds the
recursion; `jsonLoads` supplies enough for any input that parses. -/
def parseValue : Nat → List Char → Option (JValue × List Char)
  | 0, _ => none
  | fuel + 1, cs =>
    match cs with
    | '{' :: rest =>
      (match skipWs rest with
       | '}' :: r2 => some (.obj [], r2)
       | r => parseMembers fuel r [])
    | '[' :: rest =>
      (match skipWs rest with
       | ']' :: r2 => some (.arr [], r2)
       | r => parseElems fuel r [])
    | '"' :: rest =>
      (match parseJString rest with
       | some (s, r) => some (.str ⟨s⟩, r)
       | none => none)
    | 't' :: 'r' :: 'u' :: 'e' :: r => some (.bool true, r)
    | 'f' :: 'a' :: 'l' :: 's' :: 'e' :: r => some (.bool false, r)
    | 'n' :: 'u' :: 'l' :: 'l' :: r => some (.null, r)
    | 'N' :: 'a' :: 'N' :: r => some (.num ("NaN"), r)
    | 'I' :: 'n' :: 'f' :: 'i' :: 'n' :: 'i' :: 't' :: 'y' :: r =>
      some (.num ("Infinity"), r)
    | '-' :: 'I' :: 'n' :: 'f' :: 'i' :: 'n' :: 'i' :: 't' :: 'y' :: r =>
      some (.num ("-Infinity"), r)
    | _ =>
      (match parseNumber cs with
       | some (lex, r) => some (.num ⟨lex⟩, r)
       | none => none)

/-- Members of an object after `{` (first member's opening quote at the head);
trailing commas and non-string keys are errors, as in Python `json`. -/
def parseMembers : Nat → List Char → List (String × JValue) →
    Option (JValue × List Char)
  | 0, _, _ => none
  | fuel + 1, cs, acc =>
    match cs with
    | '"' :: rest =>
      (match parseJString rest with
       | none => none
       | some (k, r1) =>
         match skipWs r1 with
         | ':' :: r2 =>
           (match parseValue fuel (skipWs r2) with
            | none => none
            | some (v, r3) =>
              match skipWs r3 with
              | ',' :: r4 => parseMembers fuel (skipWs r4) (acc ++ [(⟨k⟩, v)])
              | '}' :: r4 => some (.obj (acc ++ [(⟨k⟩, v)]), r4)
              | _ => none)
         | _ => none)
    | _ => none

def parseElems : Nat → List Char → List JValue → Option (JValue × List Char)
  | 0, _, _ => none
  | fuel + 1, cs, acc =>
    match parseValue fuel cs with
    | none => none
    | some (v, r1) =>
      match skipWs r1 with
      | ',' :: r2 => parseElems fuel (skipWs r2) (acc ++ [v])
      | ']' :: r2 => some (.arr (acc ++ [v]), r2)
      | _ => none

end

/-- Python `json.loads`: exactly one JSON value surrounded by optional
whitespace; `none` models a raised `JSONDecodeError`. -/
def jsonLoads (cs : List Char) : Option JValue :=
  match parseValue (cs.length + 1) (skipWs cs) with
  | some (v, rest) => if (skipWs rest).isEmpty then some v else none
  | none => none

/-! ### `_extract_json_from_text` (`image_analyzer.py:53-91`) -/

/-- Python `'\\n' in json_str`: the two-character sequence backslash-`n`
occurs in the text. -/
def hasEscapedNewline : List Char → Bool
  | '\\' :: 'n' :: _ => true
  | _ :: rest => hasEscapedNewline rest
  | [] => false

def octVal (c : Char) : Option Nat :=
  if 48 ≤ c.toNat ∧ c.toNat ≤ 55 then some (c.toNat - 48) else none

/-- Python `json_str.encode().decode('unicode-escape')` over ASCII text:
recognized escapes are decoded, an unknown escape keeps the backslash, and a
truncated `\x`/`\u`/`\U` escape (or a trailing lone backslash, or a `\N` named
escape, which the inputs in scope do not use) raises `UnicodeDecodeError`,
modelled as `none`. -/
def pyUnicodeEscapeGo : Nat → List Char → Option (List Char)
  | 0, _ => none
  | fuel + 1, input =>
    match input with
    | [] => some []
    | '\\' :: rest =>
      (match rest with
       | [] => none
       | '\n' :: cs => pyUnicodeEscapeGo fuel cs
       | '\\' :: cs => (fun t => '\\' :: t) <$> pyUnicodeEscapeGo fuel cs
       | '\'' :: cs => (fun t => '\'' :: t) <$> pyUnicodeEscapeGo fuel cs
       | '"' :: cs => (fun t => '"' :: t) <$> pyUnicodeEscapeGo fuel cs
       | 'a' :: cs => (fun t => Char.ofNat 7 :: t) <$> pyUnicodeEscapeGo fuel cs
       | 'b' :: cs => (fun t => Char.ofNat 8 :: t) <$> pyUnicodeEscapeGo fuel cs
       | 'f' :: cs => (fun t => Char.ofNat 12 :: t) <$> pyUnicodeEscapeGo fuel cs
       | 'n' :: cs => (fun t => '\n' :: t) <$> pyUnicodeEscapeGo fuel cs
       | 'r' :: cs => (fun t => Char.ofNat 13 :: t) <$> pyUnicodeEscapeGo fuel cs
       | 't' :: cs => (fun t => '\t' :: t) <$> pyUnicodeEscapeGo fuel cs
       | 'v' :: cs => (fun t => Char.ofNat 11 :: t) <$> pyUnicodeEscapeGo fuel cs
       | 'x' :: a :: b :: cs =>
         (match hexVal a, hexVal b with
          | some h1, some h2 => (fun t => Char.ofNat (16 * h1 + h2) :: t) <$> pyUnicodeEscapeGo fuel cs
          | _, _ => none)
       | 'x' :: _ => none
       | 'u' :: a :: b :: c :: d :: cs =>
         (match hex4 a b c d with
          | some h => (fun t => Char.ofNat h :: t) <$> pyUnicodeEscapeGo fuel cs
          | none => none)
       | 'u' :: _ => none
       | 'U' :: a :: b :: c :: d :: e :: f :: g :: h :: cs =>
         (match hex4 a b c d, hex4 e f g h with
          | some hi, some lo =>
            if hi * 65536 + lo ≤ 0x10FFFF then
              (fun t => Char.ofNat (hi * 65536 + lo) :: t) <$> pyUnicodeEscapeGo fuel cs
            else none
          | _, _ => none)
       | 'U' :: _ => none
       | 'N' :: _ => none
       | c :: cs =>
         (match octVal c with
          | some o1 =>
            (match cs with
             | c2 :: cs2 =>
               (match octVal c2 with
                | some o2 =>
                  (match cs2 with
                   | c3 :: cs3 =>
                     (match octVal c3 with
                      | some o3 =>
                        (fun t => Char.ofNat (o1 * 64 + o2 * 8 + o3) :: t) <$> pyUnicodeEscapeGo fuel cs3
                      | none => (fun t => Char.ofNat (o1 * 8 + o2) :: t) <$> pyUnicodeEscapeGo fuel cs2)
                   | [] => (fun t => Char.ofNat (o1 * 8 + o2) :: t) <$> pyUnicodeEscapeGo fuel cs2)
                | none => (fun t => Char.ofNat o1 :: t) <$> pyUnicodeEscapeGo fuel cs)
             | [] => (fun t => Char.ofNat o1 :: t) <$> pyUnicodeEscapeGo fuel cs)
          | none => (fun t => '\\' :: c :: t) <$> pyUnicodeEscapeGo fuel cs))
    | c :: cs => (fun t => c :: t) <$> pyUnicodeEscapeGo fuel cs

/-- Entry point with enough fuel for the whole input (every step of
`pyUnicodeEscapeGo` consumes at least one character). -/
def pyUnicodeEscape (cs : List Char) : Option (List Char) :=
  pyUnicodeEscapeGo (cs.length + 1) cs

/-- Suffix of the text starting at its first `{`, empty if there is none. -/
def dropToOpen : List Char → List Char
  | [] => []
  | c :: cs => if c = '{' then c :: cs else dropToOpen cs

/-- Split off everything up to and including the first `}`. -/
def takeThroughClose : List Char → Option (List Char × List Char)
  | [] => none
  | c :: cs =>
    if c = '}' then some ([c], cs)
    else
      match takeThroughClose cs with
      | some (frag, rest) => some (c :: frag, rest)
      | none => none

/-- The non-overlapping matches of the regex `\{[\s\S]*?\}` scanning left to
right: from each leftmost `{` the non-greedy match runs to the next `}`, and
scanning resumes after it. -/
def fragmentsGo : Nat → List Char → List (List Char)
  | 0, _ => []
  | fuel + 1, cs =>
    match dropToOpen cs with
    | [] => []
    | o :: rest =>
      match takeThroughClose rest with
      | none => []
      | some (frag, after) => (o :: frag) :: fragmentsGo fuel after

def fragments (s : String) : List (List Char) := fragmentsGo (s.data.length + 1) s.data

/-- `isinstance(json_obj.get('tags'), list)`: the value is a dict whose last
`"tags"` member (Python dict keeps the last duplicate key) is a list. -/
def acceptsTags : JValue → Bool
  | .obj kvs =>
    (match (kvs.filter (fun kv => kv.1 == "tags")).getLast? with
     | some (_, .arr _) => true
     | _ => false)
  | _ => false

/-- `json_obj['tags']` entries for an accepted object ([] otherwise). -/
def tagsArr : JValue → List JValue
  | .obj kvs =>
    (match (kvs.filter (fun kv => kv.1 == "tags")).getLast? with
     | some (_, .arr xs) => xs
     | _ => [])
  | _ => []

/-- One loop iteration of `_extract_json_from_text` on a candidate fragment
(`match.group().strip()` is the identity: a match starts with `{` and ends
with `}`).  `.error ()`: an uncaught exception escapes the function — the
`except` clause catches only `json.JSONDecodeError`, so a
`UnicodeDecodeError` from `decode('unicode-escape')` propagates.  `.ok none`:
the fragment is discarded (parse failure caught, or no list-valued `"tags"`
key).  `.ok (some v)`: the fragment is accepted. -/
def extractFragment (frag : List Char) : Except Unit (Option JValue) :=
  match (if hasEscapedNewline frag then pyUnicodeEscape frag else some frag) with
  | none => .error ()
  | some cs =>
    match jsonLoads cs with
    | none => .ok none
    | some v => if acceptsTags v then .ok (some v) else .ok none

/-- `_extract_json_from_text`: scan all fragments, collecting accepted
objects in order; an uncaught exception aborts the whole call. -/
def extractJsonFromText (s : String) : Except Unit (List JValue) :=
  (fragments s).foldl
    (fun acc frag =>
      match acc with
      | .error e => .error e
      | .ok objs =>
        match extractFragment frag with
        | .error e => .error e
        | .ok none => .ok objs
        | .ok (some v) => .ok (objs ++ [v]))
    (.ok [])

/-! ### The tag union of `analyze_image` (`image_analyzer.py:146-150`)

`all_tags` is a Python `set`; the model keeps it as a duplicate-free list in
first-insertion order (Python's iteration order over a `set` is unspecified,
so only the membership and duplicate-freeness of the result are meaningful). -/

def setInsertJ (acc : List JValue) (x : JValue) : List JValue :=
  if acc.any (fun y => beqJ y x) then acc else acc ++ [x]

def setUnionJ (acc : List JValue) (xs : List JValue) : List JValue :=
  xs.foldl setInsertJ acc

/-- `all_tags.update(json_obj['tags'])` over every extracted object carrying a
list-valued `'tags'` key. -/
def collectTagValues (objs : List JValue) : List JValue :=
  objs.foldl (fun acc o => if acceptsTags o then setUnionJ acc (tagsArr o) else acc) []

/-- Extraction followed by the set union: the tag values `analyze_image`
accumulates from a raw response text. -/
def collectTags (s : String) : Except Unit (List JValue) :=
  match extractJsonFromText s with
  | .error e => .error e
  | .ok objs => .ok (collectTagValues objs)

/-! ### The SQLite store (`db_manager.py`)

Tables are lists of rows in insertion (rowid) order; `AUTOINCREMENT` ids are
the explicit `nextImageId` / `nextTagId` counters, starting at 1 as SQLite
rowids do.  Timestamps (`created_at`) carry no behavior in the claims and are
omitted. -/

structure ImageRow where
  id : Nat
  file_path : String
  md5_hash : String
  original_filename : String
  process_count : Nat
deriving DecidableEq, Repr

structure TagRow where
  id : Nat
  name : String
deriving DecidableEq, Repr

structure StatRow where
  image_id : Nat
  tag_id : Nat
  occurrence_count : Nat
deriving DecidableEq, Repr

structure DB where
  images : List ImageRow
  tags : List TagRow
  image_tags : List StatRow
  nextImageId : Nat
  nextTagId : Nat
deriving DecidableEq, Repr

def emptyDB : DB := ⟨[], [], [], 1, 1⟩

/-- `DatabaseManager.add_image` (`db_manager.py:60-88`).
`INSERT OR IGNORE` inserts only when neither unique column (`file_path`,
`md5_hash`) conflicts; on insert the new rowid is returned.  When the insert
was ignored (`cursor.rowcount == 0`) the fallback `SELECT id ... WHERE
md5_hash = ?` returns the existing row's id — but if the conflict was on
`file_path` and the hash is absent, `fetchone()` yields no row and
`fetchone()[0]` raises an uncaught `TypeError`, modelled as `none` (the
`with` block then leaves the store unchanged). -/
def addImage (db : DB) (fp h n : String) : Option Nat × DB :=
  if db.images.any (fun i => i.file_path == fp || i.md5_hash == h) then
    match db.images.find? (fun i => i.md5_hash == h) with
    | some row => (some row.id, db)
    | none => (none, db)
  else
    (some db.nextImageId,
     { db with
        images := db.images ++ [⟨db.nextImageId, fp, h, n, 0⟩],
        nextImageId := db.nextImageId + 1 })

/-- `DatabaseManager.get_image_by_hash` (`db_manager.py:166-197`):
`SELECT ... WHERE md5_hash = ?` with `fetchone()` — the first matching row,
or `None`. -/
def getImageByHash (db : DB) (h : String) : Option ImageRow :=
  db.images.find? (fun i => i.md5_hash == h)

/-- The `UPDATE images SET process_count = process_count + 1 WHERE id = ?` of
`add_tags` (`db_manager.py:103-107`). -/
def bumpProcessCount (imgs : List ImageRow) (imageId : Nat) : List ImageRow :=
  imgs.map (fun i =>
    if i.id = imageId then { i with process_count := i.process_count + 1 } else i)

/-- The `INSERT ... ON CONFLICT(image_id, tag_id) DO UPDATE SET
occurrence_count = occurrence_count + 1` of `add_tags`
(`db_manager.py:116-121`): increment the (unique) conflicting row, or append
a new row with `occurrence_count = 1`. -/
def upsertStat (imageId tagId : Nat) : List StatRow → List StatRow
  | [] => [⟨imageId, tagId, 1⟩]
  | st :: rest =>
    if st.image_id = imageId ∧ st.tag_id = tagId then
      { st with occurrence_count := st.occurrence_count + 1 } :: rest
    else st :: upsertStat imageId tagId rest

/-- One iteration of the tag loop of `add_tags` (`db_manager.py:109-121`):
`INSERT OR IGNORE INTO tags (name)` followed by `SELECT id FROM tags WHERE
name = ?` is get-or-create on the unique tag name; then the stat upsert. -/
def addOneTag (db : DB) (imageId : Nat) (t : String) : DB :=
  match db.tags.find? (fun r => r.name == t) with
  | some row => { db with image_tags := upsertStat imageId row.id db.image_tags }
  | none =>
    { db with
        tags := db.tags ++ [⟨db.nextTagId, t⟩],
        nextTagId := db.nextTagId + 1,
        image_tags := upsertStat imageId db.nextTagId db.image_tags }

/-- `DatabaseManager.add_tags` (`db_manager.py:90-127`): increment the
image's `process_count`, then run the tag loop over the list as given (the
loop body runs once per list element). -/
def addTags (db : DB) (imageId : Nat) (tags : List String) : DB :=
  tags.foldl (fun d t => addOneTag d imageId t)
    { db with images := bumpProcessCount db.images imageId }

/-- One row of the `get_image_tags` result set. -/
structure TagView where
  name : String
  occurrence_count : Nat
  process_count : Nat
  confidence : ℚ
deriving DecidableEq, Repr

/-- The join of `get_image_tags` (`db_manager.py:142-153`) before its
`ORDER BY`: stats of the image joined with their tag and image rows, in
stat-table (rowid) order.  `CAST(... AS FLOAT) / process_count` is modelled
as the exact ratio in `ℚ` (the counts in scope are far below any float
rounding). -/
def joinedRows (db : DB) (imageId : Nat) : List TagView :=
  (db.image_tags.filter (fun st => st.image_id == imageId)).filterMap (fun st =>
    match db.tags.find? (fun t => t.id == st.tag_id),
          db.images.find? (fun i => i.id == st.image_id) with
    | some t, some i =>
      some ⟨t.name, st.occurrence_count, i.process_count,
            (st.occurrence_count : ℚ) / (i.process_count : ℚ)⟩
    | _, _ => none)

/-- Insert keeping a descending-confidence list sorted; an element lands
after every element of greater or equal confidence, so the sort below is
stable. -/
def insConfDesc (x : TagView) : List TagView → List TagView
  | [] => [x]
  | y :: ys => if y.confidence < x.confidence then x :: y :: ys else y :: insConfDesc x ys

/-- `ORDER BY confidence DESC` — and nothing else: SQLite specifies no order
among rows of equal confidence, so the model keeps them in scan (insertion)
order via a stable sort. -/
def sortConfDesc (l : List TagView) : List TagView :=
  l.foldl (fun acc x => insConfDesc x acc) []

/-- `DatabaseManager.get_image_tags` (`db_manager.py:129-164`). -/
def getImageTags (db : DB) (imageId : Nat) : List TagView :=
  sortConfDesc (joinedRows db imageId)

/-! ### The pipeline (`image_pipeline.py`) -/

/-- A `pathlib.Path` argument of `process_image` together with the pixel
content of the file it names; `stem`/`name` are the path's filename without
and with extension.  The pipeline reads only the path data — `content` flows
solely to the external analyzer. -/
structure ImageFile where
  path : String
  stem : String
  name : String
  content : Nat
deriving DecidableEq, Repr

/-- `ImagePipeline.get_hash_from_filename` (`image_pipeline.py:35-37`): the
"MD5 hash" is the filename stem, not a digest of the bytes. -/
def getHashFromFilename (f : ImageFile) : String := f.stem

/-- `ImagePipeline.process_image` (`image_pipeline.py:39-79`), with the
outcome of `analyzer.analyze_image` (the external model call plus
extraction/normalization) passed in: `.error` is any exception from that
call (e.g. a `requests` transport error or timeout), `.ok tags` the
normalized tag list.  Any exception is caught and turned into `None`;
note the image registration happens before the analyzer runs. -/
def processImage (db : DB) (f : ImageFile) (analysis : Except Unit (List String)) :
    Option Nat × DB :=
  match getImageByHash db (getHashFromFilename f) with
  | some rec =>
    (match analysis with
     | .error _ => (none, db)
     | .ok tags => (some rec.id, addTags db rec.id tags))
  | none =>
    match addImage db f.path (getHashFromFilename f) f.name with
    | (none, db1) => (none, db1)
    | (some imageId, db1) =>
      (match analysis with
       | .error _ => (none, db1)
       | .ok tags => (some imageId, addTags db1 imageId tags))

/-! ### Operation sequences over the store -/

inductive Op where
  | img (fp h n : String) : Op
  | pass (imageId : Nat) (tags : List String) : Op
deriving DecidableEq, Repr

def stepOp (db : DB) : Op → DB
  | .img fp h n => (addImage db fp h n).2
  | .pass imageId tags => addTags db imageId tags

/-- A pass call is well-placed when its tag list is duplicate-free and its
image exists in the store at call time. -/
def opOK (db : DB) : Op → Prop
  | .img _ _ _ => True
  | .pass imageId tags => tags.Nodup ∧ ∃ i ∈ db.images, i.id = imageId

def opsOK : DB → List Op → Prop
  | _, [] => True
  | db, op :: rest => opOK db op ∧ opsOK (stepOp db op) rest

def runOps (ops : List Op) : DB := ops.foldl stepOp emptyDB

/-! ### Store well-formedness and the accumulator invariant -/

/-- Structural well-formedness the SQLite schema guarantees: unique ids and
unique columns, ids below the autoincrement counters, every stat referencing
an existing tag row, and positive occurrence counts. -/
def TableWF (db : DB) : Prop :=
  (db.images.map ImageRow.id).Nodup ∧
  (db.images.map ImageRow.md5_hash).Nodup ∧
  (db.images.map ImageRow.file_path).Nodup ∧
  (∀ i ∈ db.images, i.id < db.nextImageId) ∧
  (db.tags.map TagRow.id).Nodup ∧
  (db.tags.map TagRow.name).Nodup ∧
  (∀ t ∈ db.tags, t.id < db.nextTagId) ∧
  ((db.image_tags.map fun st => (st.image_id, st.tag_id)).Nodup) ∧
  (∀ st ∈ db.image_tags, st.tag_id < db.nextTagId) ∧
  (∀ st ∈ db.image_tags, 0 < st.occurrence_count) ∧
  (∀ st ∈ db.image_tags, ∃ tr ∈ db.tags, tr.id = st.tag_id)

/-- The accumulator invariant of the specification: every stat row belongs to
an existing image and its occurrence count is bounded by that image's
process count. -/
def StatBound (db : DB) : Prop :=
  ∀ st ∈ db.image_tags, ∃ i ∈ db.images,
    i.id = st.image_id ∧ st.occurrence_count ≤ i.process_count

def Inv (db : DB) : Prop := TableWF db ∧ StatBound db

instance decOpOK (db : DB) : (op : Op) → Decidable (opOK db op)
  | .img _ _ _ => .isTrue trivial
  | .pass imageId tags =>
    inferInstanceAs (Decidable (tags.Nodup ∧ ∃ i ∈ db.images, i.id = imageId))

instance decOpsOK : (db : DB) → (ops : List Op) → Decidable (opsOK db ops)
  | _, [] => .isTrue trivial
  | db, op :: rest => @instDecidableAnd _ _ (decOpOK db op) (decOpsOK (stepOp db op) rest)

/-- Inner invariant of the tag loop of `add_tags`: after the process-count
bump, every stat of an image still to receive increments for the tag names in
`rest` has slack for one more increment. -/
def FoldInv (imageId : Nat) (rest : List String) (d : DB) : Prop :=
  TableWF d ∧
  (∃ i ∈ d.images, i.id = imageId ∧ 1 ≤ i.process_count) ∧
  (∀ st ∈ d.image_tags, ∃ i ∈ d.images,
      i.id = st.image_id ∧ st.occurrence_count ≤ i.process_count ∧
      (st.image_id = imageId → ∀ tr ∈ d.tags, tr.id = st.tag_id → tr.name ∈ rest →
        st.occurrence_count + 1 ≤ i.process_count))

/-! ## Theorems -/

theorem toLowerA_def (c : Char) :
    toLowerA c = if 65 ≤ c.toNat ∧ c.toNat ≤ 90 then Char.ofNat (c.toNat + 32) else c := rfl

theorem toUpperA_def (c : Char) :
    toUpperA c = if 97 ≤ c.toNat ∧ c.toNat ≤ 122 then Char.ofNat (c.toNat - 32) else c := rfl

theorem toLowerA_idem (c : Char) : toLowerA (toLowerA c) = toLowerA c := by
  by_cases h : 65 ≤ c.toNat ∧ c.toNat ≤ 90
  · have h1 : toLowerA c = Char.ofNat (c.toNat + 32) := by rw [toLowerA_def, if_pos h]
    rw [h1]
    obtain ⟨ha, hb⟩ := h
    generalize c.toNat = m at ha hb
    interval_cases m <;> decide
  · have h1 : toLowerA c = c := by rw [toLowerA_def, if_neg h]
    rw [h1]; exact h1

theorem toUpperA_idem (c : Char) : toUpperA (toUpperA c) = toUpperA c := by
  by_cases h : 97 ≤ c.toNat ∧ c.toNat ≤ 122
  · have h1 : toUpperA c = Char.ofNat (c.toNat - 32) := by rw [toUpperA_def, if_pos h]
    rw [h1]
    obtain ⟨ha, hb⟩ := h
    generalize c.toNat = m at ha hb
    interval_cases m <;> decide
  · have h1 : toUpperA c = c := by rw [toUpperA_def, if_neg h]
    rw [h1]; exact h1

theorem isCasedA_toLowerA (c : Char) (h : isCasedA c = true) :
    isCasedA (toLowerA c) = true := by
  by_cases hu : 65 ≤ c.toNat ∧ c.toNat ≤ 90
  · have h1 : toLowerA c = Char.ofNat (c.toNat + 32) := by rw [toLowerA_def, if_pos hu]
    rw [h1]
    obtain ⟨ha, hb⟩ := hu
    generalize c.toNat = m at ha hb
    interval_cases m <;> decide
  · have h1 : toLowerA c = c := by rw [toLowerA_def, if_neg hu]
    rw [h1]; exact h

theorem isCasedA_toUpperA (c : Char) (h : isCasedA c = true) :
    isCasedA (toUpperA c) = true := by
  by_cases hu : 97 ≤ c.toNat ∧ c.toNat ≤ 122
  · have h1 : toUpperA c = Char.ofNat (c.toNat - 32) := by rw [toUpperA_def, if_pos hu]
    rw [h1]
    obtain ⟨ha, hb⟩ := hu
    generalize c.toNat = m at ha hb
    interval_cases m <;> decide
  · have h1 : toUpperA c = c := by rw [toUpperA_def, if_neg hu]
    rw [h1]; exact h

theorem toLowerA_ne_underscore (c : Char) (h : c ≠ '_') : toLowerA c ≠ '_' := by
  by_cases hu : 65 ≤ c.toNat ∧ c.toNat ≤ 90
  · have h1 : toLowerA c = Char.ofNat (c.toNat + 32) := by rw [toLowerA_def, if_pos hu]
    rw [h1]
    obtain ⟨ha, hb⟩ := hu
    generalize c.toNat = m at ha hb
    interval_cases m <;> decide
  · have h1 : toLowerA c = c := by rw [toLowerA_def, if_neg hu]
    rw [h1]; exact h

theorem toUpperA_ne_underscore (c : Char) (h : c ≠ '_') : toUpperA c ≠ '_' := by
  by_cases hu : 97 ≤ c.toNat ∧ c.toNat ≤ 122
  · have h1 : toUpperA c = Char.ofNat (c.toNat - 32) := by rw [toUpperA_def, if_pos hu]
    rw [h1]
    obtain ⟨ha, hb⟩ := hu
    generalize c.toNat = m at ha hb
    interval_cases m <;> decide
  · have h1 : toUpperA c = c := by rw [toUpperA_def, if_neg hu]
    rw [h1]; exact h

theorem titleChars_cons (c : Char) (cs : List Char) (b : Bool) :
    titleChars (c :: cs) b =
      if isCasedA c then
        (if b then toLowerA c else toUpperA c) :: titleChars cs true
      else c :: titleChars cs false := rfl

theorem titleChars_idem (l : List Char) : ∀ b, titleChars (titleChars l b) b = titleChars l b := by
  induction l with
  | nil => intro b; rfl
  | cons c cs ih =>
    intro b
    by_cases hc : isCasedA c = true
    · cases b with
      | false =>
        simp [titleChars_cons, hc, isCasedA_toUpperA c hc, toUpperA_idem, ih true]
      | true =>
        simp [titleChars_cons, hc, isCasedA_toLowerA c hc, toLowerA_idem, ih true]
    · rw [titleChars_cons, if_neg hc, titleChars_cons, if_neg hc, ih false]

theorem titleChars_chars {x : Char} :
    ∀ (l : List Char) (b : Bool), x ∈ titleChars l b →
      ∃ c ∈ l, x = c ∨ x = toLowerA c ∨ x = toUpperA c := by
  intro l
  induction l with
  | nil => intro b h; simp [titleChars] at h
  | cons c cs ih =>
    intro b h
    rw [titleChars_cons] at h
    by_cases hc : isCasedA c = true
    · rw [if_pos hc] at h
      rcases List.mem_cons.1 h with h1 | h1
      · refine ⟨c, List.mem_cons_self _ _, ?_⟩
        cases b with
        | false => exact Or.inr (Or.inr h1)
        | true => exact Or.inr (Or.inl h1)
      · obtain ⟨d, hd, hx⟩ := ih true h1
        exact ⟨d, List.mem_cons_of_mem _ hd, hx⟩
    · rw [if_neg hc] at h
      rcases List.mem_cons.1 h with h1 | h1
      · exact ⟨c, List.mem_cons_self _ _, Or.inl h1⟩
      · obtain ⟨d, hd, hx⟩ := ih false h1
        exact ⟨d, List.mem_cons_of_mem _ hd, hx⟩

theorem map_underscore_id (l : List Char) (h : ∀ c ∈ l, c ≠ '_') :
    l.map (fun c => if c = '_' then ' ' else c) = l := by
  induction l with
  | nil => rfl
  | cons c cs ih =>
    simp only [List.map_cons, List.cons.injEq]
    refine ⟨if_neg (h c (List.mem_cons_self _ _)), ih fun d hd => h d (List.mem_cons_of_mem _ hd)⟩

theorem normalizeTag_idem (s : String) : normalizeTag (normalizeTag s) = normalizeTag s := by
  show pyTitle (replaceUnderscore (pyTitle (replaceUnderscore s))) = pyTitle (replaceUnderscore s)
  unfold pyTitle replaceUnderscore
  have hdata : ∀ l : List Char, (⟨l⟩ : String).data = l := fun l => rfl
  rw [hdata, hdata]
  have hnound : ∀ c ∈ (s.data.map fun c => if c = '_' then ' ' else c), c ≠ '_' := by
    intro c hc
    obtain ⟨d, _, hd⟩ := List.mem_map.1 hc
    intro he
    rw [he] at hd
    by_cases h0 : d = '_'
    · rw [if_pos h0] at hd; exact absurd hd (by decide)
    · rw [if_neg h0] at hd; exact h0 hd
  have htitle : ∀ c ∈ titleChars (s.data.map fun c => if c = '_' then ' ' else c) false, c ≠ '_' := by
    intro c hc
    obtain ⟨d, hd, hcase⟩ := titleChars_chars _ _ hc
    rcases hcase with h1 | h1 | h1
    · rw [h1]; exact hnound d hd
    · rw [h1]; exact toLowerA_ne_underscore d (hnound d hd)
    · rw [h1]; exact toUpperA_ne_underscore d (hnound d hd)
  rw [map_underscore_id _ htitle, titleChars_idem]

theorem beqJ_correct_all :
    ∀ n : Nat,
      (∀ a b : JValue, sizeOf a ≤ n → (beqJ a b = true ↔ a = b)) ∧
      (∀ xs ys : List JValue, sizeOf xs ≤ n → (beqJList xs ys = true ↔ xs = ys)) ∧
      (∀ kvs kvs' : List (String × JValue), sizeOf kvs ≤ n →
        (beqJMembers kvs kvs' = true ↔ kvs = kvs')) := by
  intro n
  induction n with
  | zero =>
    refine ⟨fun a b h => ?_, fun xs ys h => ?_, fun kvs kvs' h => ?_⟩
    · cases a <;> simp at h
    · cases xs <;> simp at h
    · cases kvs <;> simp at h
  | succ n ih =>
    obtain ⟨ihv, ihl, ihm⟩ := ih
    refine ⟨fun a b h => ?_, fun xs ys h => ?_, fun kvs kvs' h => ?_⟩
    · cases a <;> cases b <;> simp_all [beqJ]
      case arr.arr xs ys =>
        have hs : sizeOf xs ≤ n := by
          have := @JValue.arr.sizeOf_spec xs; omega
        exact ihl xs ys hs
      case obj.obj kvs kvs' =>
        have hs : sizeOf kvs ≤ n := by
          have := @JValue.obj.sizeOf_spec kvs; omega
        exact ihm kvs kvs' hs
    · cases xs with
      | nil => cases ys <;> simp [beqJList]
      | cons x xs =>
        cases ys with
        | nil => simp [beqJList]
        | cons y ys =>
          have hx : sizeOf x ≤ n := by
            have := @List.cons.sizeOf_spec JValue _ x xs
            omega
          have hxs : sizeOf xs ≤ n := by
            have := @List.cons.sizeOf_spec JValue _ x xs; omega
          simp [beqJList, Bool.and_eq_true, ihv x y hx, ihl xs ys hxs]
    · cases kvs with
      | nil => cases kvs' <;> simp [beqJMembers]
      | cons kv kvs =>
        cases kvs' with
        | nil => simp [beqJMembers]
        | cons kv' kvs' =>
          obtain ⟨k1, v1⟩ := kv
          obtain ⟨k2, v2⟩ := kv'
          have hx : sizeOf v1 ≤ n := by
            have h1 := @List.cons.sizeOf_spec (String × JValue) _ (k1, v1) kvs
            have h2 := @Prod.mk.sizeOf_spec String JValue _ _ k1 v1
            omega
          have hxs : sizeOf kvs ≤ n := by
            have := @List.cons.sizeOf_spec (String × JValue) _ (k1, v1) kvs; omega
          simp [beqJMembers, Bool.and_eq_true, ihv v1 v2 hx, ihm kvs kvs' hxs]

theorem beqJ_iff (a b : JValue) : beqJ a b = true ↔ a = b :=
  (beqJ_correct_all (sizeOf a)).1 a b le_rfl

theorem mem_setInsertJ {acc : List JValue} {x y : JValue} :
    y ∈ setInsertJ acc x ↔ y ∈ acc ∨ y = x := by
  unfold setInsertJ
  by_cases h : acc.any (fun z => beqJ z x) = true
  · rw [if_pos h]
    obtain ⟨z, hz, hb⟩ := List.any_eq_true.1 h
    have hzx : z = x := (beqJ_iff z x).1 hb
    constructor
    · exact Or.inl
    · rintro (hy | hy)
      · exact hy
      · rw [hy, ← hzx]; exact hz
  · rw [if_neg h]
    simp [List.mem_append]

theorem setInsertJ_nodup {acc : List JValue} (x : JValue) (h : acc.Nodup) :
    (setInsertJ acc x).Nodup := by
  unfold setInsertJ
  by_cases hx : acc.any (fun z => beqJ z x) = true
  · rw [if_pos hx]; exact h
  · rw [if_neg hx]
    have hnotin : x ∉ acc := by
      intro hmem
      exact hx (List.any_eq_true.2 ⟨x, hmem, (beqJ_iff x x).2 rfl⟩)
    simpa [List.nodup_append] using ⟨h, hnotin⟩

theorem mem_setUnionJ {y : JValue} :
    ∀ (xs acc : List JValue), y ∈ setUnionJ acc xs ↔ y ∈ acc ∨ y ∈ xs := by
  intro xs
  induction xs with
  | nil => intro acc; simp [setUnionJ]
  | cons x xs ih =>
    intro acc
    show y ∈ setUnionJ (setInsertJ acc x) xs ↔ _
    rw [ih, mem_setInsertJ]
    simp [List.mem_cons]
    tauto

theorem setUnionJ_nodup :
    ∀ (xs acc : List JValue), acc.Nodup → (setUnionJ acc xs).Nodup := by
  intro xs
  induction xs with
  | nil => intro acc h; exact h
  | cons x xs ih => intro acc h; exact ih _ (setInsertJ_nodup x h)

theorem collectTagValues_go {t : JValue} :
    ∀ (objs : List JValue) (acc : List JValue),
      t ∈ objs.foldl (fun acc o => if acceptsTags o then setUnionJ acc (tagsArr o) else acc) acc ↔
        t ∈ acc ∨ ∃ o ∈ objs, acceptsTags o = true ∧ t ∈ tagsArr o := by
  intro objs
  induction objs with
  | nil => intro acc; simp
  | cons o objs ih =>
    intro acc
    show t ∈ objs.foldl _ (if acceptsTags o then setUnionJ acc (tagsArr o) else acc) ↔ _
    rw [ih]
    by_cases ho : acceptsTags o = true
    · rw [if_pos ho, mem_setUnionJ]
      simp only [List.mem_cons]
      constructor
      · rintro ((h | h) | ⟨o', ho', hacc, ht⟩)
        · exact Or.inl h
        · exact Or.inr ⟨o, Or.inl rfl, ho, h⟩
        · exact Or.inr ⟨o', Or.inr ho', hacc, ht⟩
      · rintro (h | ⟨o', (rfl | ho'), hacc, ht⟩)
        · exact Or.inl (Or.inl h)
        · exact Or.inl (Or.inr ht)
        · exact Or.inr ⟨o', ho', hacc, ht⟩
    · rw [if_neg ho]
      simp only [List.mem_cons]
      constructor
      · rintro (h | ⟨o', ho', hacc, ht⟩)
        · exact Or.inl h
        · exact Or.inr ⟨o', Or.inr ho', hacc, ht⟩
      · rintro (h | ⟨o', (rfl | ho'), hacc, ht⟩)
        · exact Or.inl h
        · exact absurd hacc ho
        · exact Or.inr ⟨o', ho', hacc, ht⟩

theorem collectTagValues_go_nodup :
    ∀ (objs : List JValue) (acc : List JValue), acc.Nodup →
      (objs.foldl (fun acc o => if acceptsTags o then setUnionJ acc (tagsArr o) else acc) acc).Nodup := by
  intro objs
  induction objs with
  | nil => intro acc h; exact h
  | cons o objs ih =>
    intro acc h
    show (objs.foldl _ (if acceptsTags o then setUnionJ acc (tagsArr o) else acc)).Nodup
    by_cases ho : acceptsTags o = true
    · rw [if_pos ho]; exact ih _ (setUnionJ_nodup _ _ h)
    · rw [if_neg ho]; exact ih _ h

theorem mem_collectTagValues {objs : List JValue} {t : JValue} :
    t ∈ collectTagValues objs ↔ ∃ o ∈ objs, acceptsTags o = true ∧ t ∈ tagsArr o := by
  unfold collectTagValues
  rw [collectTagValues_go]
  simp

theorem collectTagValues_nodup (objs : List JValue) : (collectTagValues objs).Nodup :=
  collectTagValues_go_nodup objs [] List.nodup_nil

/-! ### Lemmas on the `ORDER BY confidence DESC` model -/

theorem insConfDesc_perm (x : TagView) :
    ∀ l : List TagView, (insConfDesc x l).Perm (x :: l) := by
  intro l
  induction l with
  | nil => exact List.Perm.refl _
  | cons y ys ih =>
    show (if y.confidence < x.confidence then x :: y :: ys else y :: insConfDesc x ys).Perm _
    by_cases h : y.confidence < x.confidence
    · rw [if_pos h]
    · rw [if_neg h]
      exact ((ih.cons y).trans (List.Perm.swap x y ys)).symm.symm

theorem mem_insConfDesc {x z : TagView} {l : List TagView} :
    z ∈ insConfDesc x l ↔ z = x ∨ z ∈ l :=
  ⟨fun h => List.mem_cons.1 ((insConfDesc_perm x l).mem_iff.1 h),
   fun h => (insConfDesc_perm x l).mem_iff.2 (List.mem_cons.2 h)⟩

theorem insConfDesc_pairwise (x : TagView) :
    ∀ l : List TagView, l.Pairwise (fun a b => b.confidence ≤ a.confidence) →
      (insConfDesc x l).Pairwise (fun a b => b.confidence ≤ a.confidence) := by
  intro l
  induction l with
  | nil => intro _; simp [insConfDesc]
  | cons y ys ih =>
    intro h
    obtain ⟨hy, hys⟩ := List.pairwise_cons.1 h
    show (if y.confidence < x.confidence then x :: y :: ys else y :: insConfDesc x ys).Pairwise _
    by_cases hlt : y.confidence < x.confidence
    · rw [if_pos hlt]
      refine List.pairwise_cons.2 ⟨?_, h⟩
      intro z hz
      rcases List.mem_cons.1 hz with rfl | hz
      · exact le_of_lt hlt
      · exact le_trans (hy z hz) (le_of_lt hlt)
    · rw [if_neg hlt]
      refine List.pairwise_cons.2 ⟨?_, ih hys⟩
      intro z hz
      rcases mem_insConfDesc.1 hz with rfl | hz
      · exact le_of_not_lt hlt
      · exact hy z hz

theorem sortConfDesc_go_perm :
    ∀ (l acc : List TagView),
      (l.foldl (fun acc x => insConfDesc x acc) acc).Perm (acc ++ l) := by
  intro l
  induction l with
  | nil => intro acc; simp
  | cons x xs ih =>
    intro acc
    show (xs.foldl _ (insConfDesc x acc)).Perm _
    refine (ih (insConfDesc x acc)).trans ?_
    refine (((insConfDesc_perm x acc).append_right xs).trans ?_)
    have h1 : (x :: acc ++ xs).Perm (acc ++ x :: xs) := by
      simpa using (@List.perm_middle TagView x acc xs).symm
    exact h1

theorem sortConfDesc_perm (l : List TagView) : (sortConfDesc l).Perm l :=
  sortConfDesc_go_perm l []

theorem sortConfDesc_go_pairwise :
    ∀ (l acc : List TagView),
      acc.Pairwise (fun a b => b.confidence ≤ a.confidence) →
      (l.foldl (fun acc x => insConfDesc x acc) acc).Pairwise
        (fun a b => b.confidence ≤ a.confidence) := by
  intro l
  induction l with
  | nil => intro acc h; exact h
  | cons x xs ih =>
    intro acc h
    exact ih _ (insConfDesc_pairwise x acc h)

theorem sortConfDesc_pairwise (l : List TagView) :
    (sortConfDesc l).Pairwise (fun a b => b.confidence ≤ a.confidence) :=
  sortConfDesc_go_pairwise l [] List.Pairwise.nil

/-! ### Structural lemmas on `add_tags` -/

theorem addOneTag_images (d : DB) (imageId : Nat) (t : String) :
    (addOneTag d imageId t).images = d.images := by
  unfold addOneTag
  cases d.tags.find? (fun r => r.name == t) <;> rfl

theorem addOneTag_nextImageId (d : DB) (imageId : Nat) (t : String) :
    (addOneTag d imageId t).nextImageId = d.nextImageId := by
  unfold addOneTag
  cases d.tags.find? (fun r => r.name == t) <;> rfl

theorem foldTags_images (imageId : Nat) :
    ∀ (tags : List String) (d : DB),
      (tags.foldl (fun x t => addOneTag x imageId t) d).images = d.images := by
  intro tags
  induction tags with
  | nil => intro d; rfl
  | cons t ts ih =>
    intro d
    show (ts.foldl _ (addOneTag d imageId t)).images = _
    rw [ih, addOneTag_images]

theorem foldTags_nextImageId (imageId : Nat) :
    ∀ (tags : List String) (d : DB),
      (tags.foldl (fun x t => addOneTag x imageId t) d).nextImageId = d.nextImageId := by
  intro tags
  induction tags with
  | nil => intro d; rfl
  | cons t ts ih =>
    intro d
    show (ts.foldl _ (addOneTag d imageId t)).nextImageId = _
    rw [ih, addOneTag_nextImageId]

theorem addTags_images (d : DB) (imageId : Nat) (tags : List String) :
    (addTags d imageId tags).images = bumpProcessCount d.images imageId :=
  foldTags_images imageId tags _

theorem addTags_nil (d : DB) (imageId : Nat) :
    addTags d imageId [] = { d with images := bumpProcessCount d.images imageId } := rfl

theorem upsertStat_cons (imageId tagId : Nat) (st : StatRow) (rest : List StatRow) :
    upsertStat imageId tagId (st :: rest) =
      if st.image_id = imageId ∧ st.tag_id = tagId then
        { st with occurrence_count := st.occurrence_count + 1 } :: rest
      else st :: upsertStat imageId tagId rest := rfl

theorem mem_upsertStat {imageId tagId : Nat} {st' : StatRow} :
    ∀ {l : List StatRow}, st' ∈ upsertStat imageId tagId l →
      st' ∈ l ∨ (st'.image_id = imageId ∧ st'.tag_id = tagId ∧
        (st'.occurrence_count = 1 ∨
          ∃ st ∈ l, st.image_id = imageId ∧ st.tag_id = tagId ∧
            st'.occurrence_count = st.occurrence_count + 1)) := by
  intro l
  induction l with
  | nil =>
    intro h
    rcases List.mem_singleton.1 h with rfl
    exact Or.inr ⟨rfl, rfl, Or.inl rfl⟩
  | cons st rest ih =>
    intro h
    rw [upsertStat_cons] at h
    by_cases hk : st.image_id = imageId ∧ st.tag_id = tagId
    · rw [if_pos hk] at h
      rcases List.mem_cons.1 h with rfl | h1
      · exact Or.inr ⟨hk.1, hk.2, Or.inr ⟨st, List.mem_cons_self _ _, hk.1, hk.2, rfl⟩⟩
      · exact Or.inl (List.mem_cons_of_mem _ h1)
    · rw [if_neg hk] at h
      rcases List.mem_cons.1 h with rfl | h1
      · exact Or.inl (List.mem_cons_self _ _)
      · rcases ih h1 with h2 | ⟨e1, e2, h3⟩
        · exact Or.inl (List.mem_cons_of_mem _ h2)
        · refine Or.inr ⟨e1, e2, ?_⟩
          rcases h3 with h3 | ⟨st2, hst2, f1, f2, f3⟩
          · exact Or.inl h3
          · exact Or.inr ⟨st2, List.mem_cons_of_mem _ hst2, f1, f2, f3⟩

theorem upsertStat_keys (imageId tagId : Nat) :
    ∀ l : List StatRow,
      (upsertStat imageId tagId l).map (fun st => (st.image_id, st.tag_id)) =
        if (imageId, tagId) ∈ l.map (fun st => (st.image_id, st.tag_id)) then
          l.map (fun st => (st.image_id, st.tag_id))
        else l.map (fun st => (st.image_id, st.tag_id)) ++ [(imageId, tagId)] := by
  intro l
  induction l with
  | nil => simp [upsertStat]
  | cons st rest ih =>
    rw [upsertStat_cons]
    by_cases hk : st.image_id = imageId ∧ st.tag_id = tagId
    · rw [if_pos hk]
      have hkey : (st.image_id, st.tag_id) = (imageId, tagId) := by rw [hk.1, hk.2]
      simp only [List.map_cons]
      rw [if_pos (by rw [hkey]; exact List.mem_cons_self _ _)]
    · rw [if_neg hk]
      have hkey : (st.image_id, st.tag_id) ≠ (imageId, tagId) := by
        intro he
        exact hk ⟨congrArg Prod.fst he, congrArg Prod.snd he⟩
      simp only [List.map_cons, ih]
      by_cases hmem : (imageId, tagId) ∈ rest.map (fun st => (st.image_id, st.tag_id))
      · rw [if_pos hmem, if_pos (List.mem_cons_of_mem _ hmem)]
      · rw [if_neg hmem, if_neg ?_]
        · rfl
        · intro hcon
          rcases List.mem_cons.1 hcon with he | he
          · exact hkey he.symm
          · exact hmem he

theorem upsertStat_keys_nodup {imageId tagId : Nat} {l : List StatRow}
    (h : (l.map (fun st => (st.image_id, st.tag_id))).Nodup) :
    ((upsertStat imageId tagId l).map (fun st => (st.image_id, st.tag_id))).Nodup := by
  rw [upsertStat_keys]
  by_cases hmem : (imageId, tagId) ∈ l.map (fun st => (st.image_id, st.tag_id))
  · rw [if_pos hmem]; exact h
  · rw [if_neg hmem]
    refine List.Nodup.append h (List.nodup_singleton _) ?_
    intro p hp hq
    rcases List.mem_singleton.1 hq with rfl
    exact hmem hp

/-! ### Preservation of the accumulator invariant -/

theorem foldInv_step (imageId : Nat) (t : String) (rest : List String) (d : DB)
    (hinv : FoldInv imageId (t :: rest) d) (hnotin : t ∉ rest) :
    FoldInv imageId rest (addOneTag d imageId t) := by
  obtain ⟨hwf, himg, hstats⟩ := hinv
  obtain ⟨hImgIds, hImgHash, hImgPath, hImgLt, hTagIds, hTagNames, hTagLt, hKeys,
    hStatTagLt, hStatPos, hStatTag⟩ := hwf
  cases hfind : d.tags.find? (fun r => r.name == t) with
  | some row =>
    have hrowmem : row ∈ d.tags := List.mem_of_find?_eq_some hfind
    have hrowname : row.name = t := by
      have h1 := List.find?_some hfind
      simpa using h1
    have hd' : addOneTag d imageId t =
        { d with image_tags := upsertStat imageId row.id d.image_tags } := by
      unfold addOneTag; rw [hfind]
    rw [hd']
    refine ⟨⟨hImgIds, hImgHash, hImgPath, hImgLt, hTagIds, hTagNames, hTagLt,
      upsertStat_keys_nodup hKeys, ?_, ?_, ?_⟩, himg, ?_⟩
    · -- stat tag ids below the counter
      intro st' hst'
      rcases mem_upsertStat hst' with hold | ⟨_, e2, _⟩
      · exact hStatTagLt st' hold
      · rw [e2]; exact hTagLt row hrowmem
    · -- positivity
      intro st' hst'
      rcases mem_upsertStat hst' with hold | ⟨_, _, e3⟩
      · exact hStatPos st' hold
      · rcases e3 with e3 | ⟨st, _, _, _, f3⟩
        · omega
        · omega
    · -- stats reference existing tag rows
      intro st' hst'
      rcases mem_upsertStat hst' with hold | ⟨_, e2, _⟩
      · exact hStatTag st' hold
      · exact ⟨row, hrowmem, e2.symm⟩
    · -- occurrence bounds
      intro st' hst'
      rcases mem_upsertStat hst' with hold | ⟨e1, e2, e3⟩
      · obtain ⟨i, hi, hid, hle, hcond⟩ := hstats st' hold
        exact ⟨i, hi, hid, hle, fun him tr htr hti htn =>
          hcond him tr htr hti (List.mem_cons_of_mem _ htn)⟩
      · obtain ⟨i0, hi0, hid0, hpc0⟩ := himg
        refine ⟨i0, hi0, by rw [hid0, e1], ?_, ?_⟩
        · rcases e3 with e3 | ⟨st, hstmem, f1, f2, f3⟩
          · omega
          · obtain ⟨i, hi, hid, _, hcond⟩ := hstats st hstmem
            have hii : i = i0 :=
              List.inj_on_of_nodup_map hImgIds hi hi0 (by rw [hid, hid0, f1])
            have hb := hcond (by rw [f1]) row hrowmem (by rw [f2])
              (by rw [hrowname]; exact List.mem_cons_self _ _)
            rw [f3, ← hii]
            exact hb
        · intro _ tr htr hti htn
          have htrrow : tr = row :=
            List.inj_on_of_nodup_map hTagIds htr hrowmem (by rw [hti, e2])
          rw [htrrow, hrowname] at htn
          exact absurd htn hnotin
  | none =>
    have hnameabs : ∀ r ∈ d.tags, r.name ≠ t := by
      intro r hr he
      have h1 := List.find?_eq_none.1 hfind r hr
      simp [he] at h1
    have hd' : addOneTag d imageId t =
        { d with
            tags := d.tags ++ [⟨d.nextTagId, t⟩],
            nextTagId := d.nextTagId + 1,
            image_tags := upsertStat imageId d.nextTagId d.image_tags } := by
      unfold addOneTag; rw [hfind]
    rw [hd']
    have hTagMem : ∀ tr ∈ d.tags ++ [(⟨d.nextTagId, t⟩ : TagRow)],
        tr ∈ d.tags ∨ tr = ⟨d.nextTagId, t⟩ := by
      intro tr htr
      rcases List.mem_append.1 htr with h1 | h1
      · exact Or.inl h1
      · exact Or.inr (List.mem_singleton.1 h1)
    refine ⟨⟨hImgIds, hImgHash, hImgPath, hImgLt, ?_, ?_, ?_, upsertStat_keys_nodup hKeys,
      ?_, ?_, ?_⟩, himg, ?_⟩
    · -- tag ids nodup
      rw [List.map_append]
      refine List.Nodup.append hTagIds (List.nodup_singleton _) ?_
      intro p hp hq
      rcases List.mem_singleton.1 hq with rfl
      obtain ⟨r, hr, hrid⟩ := List.mem_map.1 hp
      exact absurd hrid (Nat.ne_of_lt (hTagLt r hr))
    · -- tag names nodup
      rw [List.map_append]
      refine List.Nodup.append hTagNames (List.nodup_singleton _) ?_
      intro p hp hq
      rcases List.mem_singleton.1 hq with rfl
      obtain ⟨r, hr, hrn⟩ := List.mem_map.1 hp
      exact hnameabs r hr hrn
    · -- tag ids below new counter
      intro tr htr
      rcases hTagMem tr htr with h1 | rfl
      · exact Nat.lt_succ_of_lt (hTagLt tr h1)
      · exact Nat.lt_succ_self _
    · -- stat tag ids below new counter
      intro st' hst'
      rcases mem_upsertStat hst' with hold | ⟨_, e2, _⟩
      · exact Nat.lt_succ_of_lt (hStatTagLt st' hold)
      · rw [e2]; exact Nat.lt_succ_self _
    · -- positivity
      intro st' hst'
      rcases mem_upsertStat hst' with hold | ⟨_, _, e3⟩
      · exact hStatPos st' hold
      · rcases e3 with e3 | ⟨st, _, _, _, f3⟩ <;> omega
    · -- stats reference existing tag rows
      intro st' hst'
      rcases mem_upsertStat hst' with hold | ⟨_, e2, _⟩
      · obtain ⟨tr, htr, htri⟩ := hStatTag st' hold
        exact ⟨tr, List.mem_append_left _ htr, htri⟩
      · exact ⟨⟨d.nextTagId, t⟩, List.mem_append_right _ (List.mem_singleton_self _), e2.symm⟩
    · -- occurrence bounds
      intro st' hst'
      rcases mem_upsertStat hst' with hold | ⟨e1, e2, e3⟩
      · obtain ⟨i, hi, hid, hle, hcond⟩ := hstats st' hold
        refine ⟨i, hi, hid, hle, ?_⟩
        intro him tr htr hti htn
        rcases hTagMem tr htr with h1 | rfl
        · exact hcond him tr h1 hti (List.mem_cons_of_mem _ htn)
        · exact absurd hti (Nat.ne_of_gt (hStatTagLt st' hold))
      · obtain ⟨i0, hi0, hid0, hpc0⟩ := himg
        refine ⟨i0, hi0, by rw [hid0, e1], ?_, ?_⟩
        · rcases e3 with e3 | ⟨st, hstmem, _, f2, _⟩
          · omega
          · exact absurd f2 (Nat.ne_of_lt (hStatTagLt st hstmem))
        · intro _ tr htr hti htn
          rcases hTagMem tr htr with h1 | rfl
          · exact absurd (by rw [hti, e2] : tr.id = d.nextTagId)
              (Nat.ne_of_lt (hTagLt tr h1))
          · exact absurd htn hnotin

theorem bumpProcessCount_map_id (l : List ImageRow) (imageId : Nat) :
    (bumpProcessCount l imageId).map ImageRow.id = l.map ImageRow.id := by
  unfold bumpProcessCount
  rw [List.map_map]
  refine List.map_congr_left ?_
  intro i _
  by_cases h : i.id = imageId
  · simp [h]
  · simp [h]

theorem bumpProcessCount_map_hash (l : List ImageRow) (imageId : Nat) :
    (bumpProcessCount l imageId).map ImageRow.md5_hash = l.map ImageRow.md5_hash := by
  unfold bumpProcessCount
  rw [List.map_map]
  refine List.map_congr_left ?_
  intro i _
  by_cases h : i.id = imageId
  · simp [h]
  · simp [h]

theorem bumpProcessCount_map_path (l : List ImageRow) (imageId : Nat) :
    (bumpProcessCount l imageId).map ImageRow.file_path = l.map ImageRow.file_path := by
  unfold bumpProcessCount
  rw [List.map_map]
  refine List.map_congr_left ?_
  intro i _
  by_cases h : i.id = imageId
  · simp [h]
  · simp [h]

theorem foldInv_init (d : DB) (imageId : Nat) (tags0 : List String)
    (hInv : Inv d) (himg : ∃ i ∈ d.images, i.id = imageId) :
    FoldInv imageId tags0 { d with images := bumpProcessCount d.images imageId } := by
  obtain ⟨⟨hImgIds, hImgHash, hImgPath, hImgLt, hTagIds, hTagNames, hTagLt, hKeys,
    hStatTagLt, hStatPos, hStatTag⟩, hSB⟩ := hInv
  refine ⟨⟨?_, ?_, ?_, ?_, hTagIds, hTagNames, hTagLt, hKeys, hStatTagLt, hStatPos, hStatTag⟩,
    ?_, ?_⟩
  · rw [show ({ d with images := bumpProcessCount d.images imageId } : DB).images =
      bumpProcessCount d.images imageId from rfl, bumpProcessCount_map_id]
    exact hImgIds
  · rw [show ({ d with images := bumpProcessCount d.images imageId } : DB).images =
      bumpProcessCount d.images imageId from rfl, bumpProcessCount_map_hash]
    exact hImgHash
  · rw [show ({ d with images := bumpProcessCount d.images imageId } : DB).images =
      bumpProcessCount d.images imageId from rfl, bumpProcessCount_map_path]
    exact hImgPath
  · intro i' hi'
    obtain ⟨i, hi, hfi⟩ := List.mem_map.1 hi'
    have hsame : i'.id = i.id := by
      rw [← hfi]
      by_cases h : i.id = imageId
      · simp [h]
      · simp [h]
    rw [hsame]
    exact hImgLt i hi
  · obtain ⟨i, hi, hid⟩ := himg
    refine ⟨(if i.id = imageId then { i with process_count := i.process_count + 1 } else i),
      List.mem_map_of_mem _ hi, ?_, ?_⟩
    · rw [if_pos hid]; exact hid
    · rw [if_pos hid]
      exact Nat.succ_le_succ (Nat.zero_le _)
  · intro st hst
    obtain ⟨i, hi, hid, hle⟩ := hSB st hst
    by_cases hii : i.id = imageId
    · refine ⟨{ i with process_count := i.process_count + 1 }, ?_, hid, ?_, ?_⟩
      · have hmem : (if i.id = imageId then { i with process_count := i.process_count + 1 } else i)
            ∈ bumpProcessCount d.images imageId := List.mem_map_of_mem _ hi
        rwa [if_pos hii] at hmem
      · exact Nat.le_succ_of_le hle
      · intro _ tr _ _ _
        exact Nat.succ_le_succ hle
    · refine ⟨i, ?_, hid, hle, ?_⟩
      · have hmem : (if i.id = imageId then { i with process_count := i.process_count + 1 } else i)
            ∈ bumpProcessCount d.images imageId := List.mem_map_of_mem _ hi
        rwa [if_neg hii] at hmem
      · intro him _ _ _ _
        exact absurd (hid.trans him) hii

theorem foldInv_run (imageId : Nat) :
    ∀ (tags : List String) (d : DB), tags.Nodup → FoldInv imageId tags d →
      FoldInv imageId [] (tags.foldl (fun x t => addOneTag x imageId t) d) := by
  intro tags
  induction tags with
  | nil => intro d _ h; exact h
  | cons t rest ih =>
    intro d hnd h
    obtain ⟨hnotin, hnd'⟩ := List.nodup_cons.1 hnd
    exact ih _ hnd' (foldInv_step imageId t rest d h hnotin)

theorem foldInv_done (imageId : Nat) (d : DB) (h : FoldInv imageId [] d) : Inv d := by
  obtain ⟨hwf, _, hstats⟩ := h
  refine ⟨hwf, ?_⟩
  intro st hst
  obtain ⟨i, hi, hid, hle, _⟩ := hstats st hst
  exact ⟨i, hi, hid, hle⟩

theorem addTags_inv (d : DB) (imageId : Nat) (tags : List String)
    (hInv : Inv d) (himg : ∃ i ∈ d.images, i.id = imageId) (hnd : tags.Nodup) :
    Inv (addTags d imageId tags) :=
  foldInv_done imageId _
    (foldInv_run imageId tags _ hnd (foldInv_init d imageId tags hInv himg))

theorem addImage_eq_of_conflict (d : DB) (fp h n : String)
    (hc : d.images.any (fun i => i.file_path == fp || i.md5_hash == h) = true) :
    (addImage d fp h n).2 = d := by
  unfold addImage
  rw [if_pos hc]
  cases d.images.find? (fun i => i.md5_hash == h) <;> rfl

theorem addImage_eq_insert (d : DB) (fp h n : String)
    (hc : ¬ d.images.any (fun i => i.file_path == fp || i.md5_hash == h) = true) :
    addImage d fp h n = (some d.nextImageId,
      { d with
          images := d.images ++ [⟨d.nextImageId, fp, h, n, 0⟩],
          nextImageId := d.nextImageId + 1 }) := by
  unfold addImage
  rw [if_neg hc]

theorem addImage_no_conflict_facts (d : DB) (fp h : String)
    (hc : ¬ d.images.any (fun i => i.file_path == fp || i.md5_hash == h) = true) :
    ∀ i ∈ d.images, i.file_path ≠ fp ∧ i.md5_hash ≠ h := by
  intro i hi
  have h1 : d.images.any (fun i => i.file_path == fp || i.md5_hash == h) = false :=
    Bool.eq_false_iff.2 hc
  have h2 := List.any_eq_false.1 h1 i hi
  simp only [Bool.or_eq_true, beq_iff_eq] at h2
  exact ⟨fun he => h2 (Or.inl he), fun he => h2 (Or.inr he)⟩

theorem addImage_inv (d : DB) (fp h n : String) (hInv : Inv d) : Inv (addImage d fp h n).2 := by
  by_cases hc : d.images.any (fun i => i.file_path == fp || i.md5_hash == h) = true
  · rw [addImage_eq_of_conflict d fp h n hc]; exact hInv
  · obtain ⟨⟨hImgIds, hImgHash, hImgPath, hImgLt, hTagIds, hTagNames, hTagLt, hKeys,
      hStatTagLt, hStatPos, hStatTag⟩, hSB⟩ := hInv
    have habs := addImage_no_conflict_facts d fp h hc
    have hgoal : Inv { d with
        images := d.images ++ [⟨d.nextImageId, fp, h, n, 0⟩],
        nextImageId := d.nextImageId + 1 } := by
      refine ⟨⟨?_, ?_, ?_, ?_, hTagIds, hTagNames, hTagLt, hKeys, hStatTagLt, hStatPos,
        hStatTag⟩, ?_⟩
      · show (List.map ImageRow.id (d.images ++ [⟨d.nextImageId, fp, h, n, 0⟩])).Nodup
        rw [List.map_append]
        refine List.Nodup.append hImgIds (List.nodup_singleton _) ?_
        intro p hp hq
        rcases List.mem_singleton.1 hq with rfl
        obtain ⟨r, hr, hrid⟩ := List.mem_map.1 hp
        exact absurd hrid (Nat.ne_of_lt (hImgLt r hr))
      · show (List.map ImageRow.md5_hash (d.images ++ [⟨d.nextImageId, fp, h, n, 0⟩])).Nodup
        rw [List.map_append]
        refine List.Nodup.append hImgHash (List.nodup_singleton _) ?_
        intro p hp hq
        rcases List.mem_singleton.1 hq with rfl
        obtain ⟨r, hr, hrh⟩ := List.mem_map.1 hp
        exact (habs r hr).2 hrh
      · show (List.map ImageRow.file_path (d.images ++ [⟨d.nextImageId, fp, h, n, 0⟩])).Nodup
        rw [List.map_append]
        refine List.Nodup.append hImgPath (List.nodup_singleton _) ?_
        intro p hp hq
        rcases List.mem_singleton.1 hq with rfl
        obtain ⟨r, hr, hrp⟩ := List.mem_map.1 hp
        exact (habs r hr).1 hrp
      · intro i hi
        rcases List.mem_append.1 hi with h1 | h1
        · exact Nat.lt_succ_of_lt (hImgLt i h1)
        · rcases List.mem_singleton.1 h1 with rfl
          exact Nat.lt_succ_self _
      · intro st hst
        obtain ⟨i, hi, hid, hle⟩ := hSB st hst
        exact ⟨i, List.mem_append_left _ hi, hid, hle⟩
    rw [addImage_eq_insert d fp h n hc]
    exact hgoal

theorem inv_emptyDB : Inv emptyDB :=
  ⟨⟨List.nodup_nil, List.nodup_nil, List.nodup_nil, fun _ hi => absurd hi (List.not_mem_nil _),
    List.nodup_nil, List.nodup_nil, fun _ ht => absurd ht (List.not_mem_nil _),
    List.nodup_nil, fun _ hs => absurd hs (List.not_mem_nil _),
    fun _ hs => absurd hs (List.not_mem_nil _), fun _ hs => absurd hs (List.not_mem_nil _)⟩,
   fun _ hs => absurd hs (List.not_mem_nil _)⟩

theorem opsOK_inv : ∀ (ops : List Op) (d : DB), Inv d → opsOK d ops →
    Inv (ops.foldl stepOp d) := by
  intro ops
  induction ops with
  | nil => intro d hd _; exact hd
  | cons op rest ih =>
    intro d hd hok
    obtain ⟨h1, h2⟩ := hok
    show Inv (rest.foldl stepOp (stepOp d op))
    refine ih _ ?_ h2
    cases op with
    | img fp hh nn => exact addImage_inv d fp hh nn hd
    | pass imageId tags =>
      obtain ⟨hnd, himg⟩ := h1
      exact addTags_inv d imageId tags hd himg hnd

theorem runOps_inv (ops : List Op) (hok : opsOK emptyDB ops) : Inv (runOps ops) :=
  opsOK_inv ops emptyDB inv_emptyDB hok

/-! ### Iterated empty passes -/

theorem addTags_empty_iterate (d : DB) (imageId : Nat) :
    ∀ n : Nat, (fun x => addTags x imageId []) ^[n] d =
      { d with images := d.images.map (fun i =>
          if i.id = imageId then { i with process_count := i.process_count + n } else i) } := by
  intro n
  induction n with
  | zero =>
    rw [Function.iterate_zero_apply]
    have h : (fun i : ImageRow =>
        if i.id = imageId then { i with process_count := i.process_count + 0 } else i) = id := by
      funext i
      by_cases hi : i.id = imageId
      · rw [if_pos hi]; rfl
      · rw [if_neg hi]; rfl
    rw [h, List.map_id]
  | succ n ih =>
    rw [Function.iterate_succ_apply', ih, addTags_nil]
    show ({ d with images := bumpProcessCount (d.images.map _) imageId } : DB) = _
    unfold bumpProcessCount
    rw [List.map_map]
    have h : ((fun i : ImageRow =>
          if i.id = imageId then { i with process_count := i.process_count + 1 } else i) ∘
        (fun i : ImageRow =>
          if i.id = imageId then { i with process_count := i.process_count + n } else i)) =
        fun i : ImageRow =>
          if i.id = imageId then { i with process_count := i.process_count + (n + 1) } else i := by
      funext i
      by_cases hi : i.id = imageId
      · simp only [Function.comp_apply, if_pos hi]
        rfl
      · simp only [Function.comp_apply, if_neg hi]
    rw [h]

/-! ### The orchestrator on a failed analysis -/

theorem processImage_error (db : DB) (f : ImageFile) :
    (processImage db f (.error ())).1 = none ∧
      (processImage db f (.error ())).2.image_tags = db.image_tags ∧
      (processImage db f (.error ())).2.tags = db.tags ∧
      ((processImage db f (.error ())).2.images = db.images ∨
        ∃ row : ImageRow, (processImage db f (.error ())).2.images = db.images ++ [row] ∧
          row.process_count = 0) := by
  unfold processImage
  cases hg : getImageByHash db (getHashFromFilename f) with
  | some rec => exact ⟨rfl, rfl, rfl, Or.inl rfl⟩
  | none =>
    by_cases hc : db.images.any
        (fun i => i.file_path == f.path || i.md5_hash == getHashFromFilename f) = true
    · have he := addImage_eq_of_conflict db f.path (getHashFromFilename f) f.name hc
      cases ha : addImage db f.path (getHashFromFilename f) f.name with
      | mk o db1 =>
        have hdb1 : db1 = db := by rw [ha] at he; exact he
        subst hdb1
        cases o <;> exact ⟨rfl, rfl, rfl, Or.inl rfl⟩
    · rw [addImage_eq_insert db f.path (getHashFromFilename f) f.name hc]
      exact ⟨rfl, rfl, rfl, Or.inr ⟨⟨db.nextImageId, f.path, getHashFromFilename f, f.name, 0⟩,
        rfl, rfl⟩⟩

/-! ### The registry's get-or-create behavior -/

theorem addImage_existing (d : DB) (fp h n : String) (rec : ImageRow)
    (hg : getImageByHash d h = some rec) :
    addImage d fp h n = (some rec.id, d) := by
  have hf : d.images.find? (fun i => i.md5_hash == h) = some rec := hg
  have hmem : rec ∈ d.images := List.mem_of_find?_eq_some hf
  have hrech : rec.md5_hash = h := by
    have h1 := List.find?_some hf
    simpa using h1
  have hany : d.images.any (fun i => i.file_path == fp || i.md5_hash == h) = true :=
    List.any_eq_true.2 ⟨rec, hmem, by simp [hrech]⟩
  unfold addImage
  rw [if_pos hany, hf]

theorem addImage_fresh (d : DB) (fp h n : String)
    (habs : ∀ i ∈ d.images, i.md5_hash ≠ h ∧ i.file_path ≠ fp) :
    addImage d fp h n = (some d.nextImageId,
      { d with
          images := d.images ++ [⟨d.nextImageId, fp, h, n, 0⟩],
          nextImageId := d.nextImageId + 1 }) := by
  refine addImage_eq_insert d fp h n ?_
  intro hc
  obtain ⟨i, hi, hb⟩ := List.any_eq_true.1 hc
  simp only [Bool.or_eq_true, beq_iff_eq] at hb
  rcases hb with hb | hb
  · exact (habs i hi).2 hb
  · exact (habs i hi).1 hb

theorem filter_hash_singleton {h : String} :
    ∀ {l : List ImageRow} {r : ImageRow},
      (l.map ImageRow.md5_hash).Nodup → r ∈ l → r.md5_hash = h →
      l.filter (fun i => i.md5_hash == h) = [r] := by
  intro l
  induction l with
  | nil => intro r _ hr _; cases hr
  | cons a l ih =>
    intro r hnd hr hrh
    have hnd' : (l.map ImageRow.md5_hash).Nodup := (List.nodup_cons.1 hnd).2
    have hahd : a.md5_hash ∉ l.map ImageRow.md5_hash := (List.nodup_cons.1 hnd).1
    rcases List.mem_cons.1 hr with rfl | hr1
    · rw [List.filter_cons, if_pos (by simp [hrh])]
      have hno : l.filter (fun i => i.md5_hash == h) = [] := by
        rw [List.filter_eq_nil_iff]
        intro x hx hbx
        have hxh : x.md5_hash = h := by simpa using hbx
        exact hahd (by rw [hrh, ← hxh]; exact List.mem_map_of_mem _ hx)
      rw [hno]
    · rw [List.filter_cons, if_neg ?_]
      · exact ih hnd' hr1 hrh
      · intro hba
        have hah : a.md5_hash = h := by simpa using hba
        exact hahd (by rw [hah, ← hrh]; exact List.mem_map_of_mem _ hr1)

theorem addImage_dedup (d : DB) (fp1 fp2 h n1 n2 : String) (i : Nat) (d1 : DB)
    (hnd : (d.images.map ImageRow.md5_hash).Nodup)
    (h1 : addImage d fp1 h n1 = (some i, d1)) :
    addImage d1 fp2 h n2 = (some i, d1) ∧
      (d1.images.filter (fun r => r.md5_hash == h)).length = 1 := by
  by_cases hc : d.images.any (fun r => r.file_path == fp1 || r.md5_hash == h) = true
  · unfold addImage at h1
    rw [if_pos hc] at h1
    cases hf : d.images.find? (fun r => r.md5_hash == h) with
    | none => rw [hf] at h1; cases h1
    | some row =>
      rw [hf] at h1
      have hi : row.id = i := by
        have h2 := congrArg Prod.fst h1
        simpa using h2
      have hd : d = d1 := congrArg Prod.snd h1
      subst hd
      have hrow : row ∈ d.images := List.mem_of_find?_eq_some hf
      have hrowh : row.md5_hash = h := by
        have := List.find?_some hf
        simpa using this
      constructor
      · rw [addImage_existing d fp2 h n2 row hf, hi]
      · rw [filter_hash_singleton hnd hrow hrowh]
        rfl
  · have habs := addImage_no_conflict_facts d fp1 h hc
    rw [addImage_eq_insert d fp1 h n1 hc] at h1
    have hi : d.nextImageId = i := by
      have h2 := congrArg Prod.fst h1
      simpa using h2
    have hd : ({ d with
        images := d.images ++ [⟨d.nextImageId, fp1, h, n1, 0⟩],
        nextImageId := d.nextImageId + 1 } : DB) = d1 := congrArg Prod.snd h1
    subst hi
    subst hd
    have hfo : d.images.find? (fun r => r.md5_hash == h) = none := by
      rw [List.find?_eq_none]
      intro x hx hbx
      exact (habs x hx).2 (by simpa using hbx)
    constructor
    · have hg : getImageByHash ({ d with
          images := d.images ++ [⟨d.nextImageId, fp1, h, n1, 0⟩],
          nextImageId := d.nextImageId + 1 } : DB) h =
          some ⟨d.nextImageId, fp1, h, n1, 0⟩ := by
        show (d.images ++ [(⟨d.nextImageId, fp1, h, n1, 0⟩ : ImageRow)]).find?
          (fun r => r.md5_hash == h) = _
        rw [List.find?_append, hfo]
        simp [List.find?]
      rw [addImage_existing _ fp2 h n2 _ hg]
    · show ((d.images ++ [(⟨d.nextImageId, fp1, h, n1, 0⟩ : ImageRow)]).filter
        (fun r => r.md5_hash == h)).length = 1
      rw [List.filter_append]
      have hfl : d.images.filter (fun r => r.md5_hash == h) = [] := by
        rw [List.filter_eq_nil_iff]
        intro x hx hbx
        exact (habs x hx).2 (by simpa using hbx)
      rw [hfl]
      simp [List.filter]

theorem processImage_hash_named (md5 : Nat → String) (f1 f2 : ImageFile)
    (t1 t2 : List String)
    (h1 : f1.stem = md5 f1.content) (h2 : f2.stem = md5 f2.content)
    (hc : f1.content = f2.content) :
    (processImage emptyDB f1 (.ok t1)).1 = some 1 ∧
      (processImage (processImage emptyDB f1 (.ok t1)).2 f2 (.ok t2)).1 = some 1 := by
  have hstem : f2.stem = f1.stem := by rw [h2, ← hc, ← h1]
  have hp1 : processImage emptyDB f1 (Except.ok t1) =
      (some 1, addTags (⟨[⟨1, f1.path, f1.stem, f1.name, 0⟩], [], [], 2, 1⟩ : DB) 1 t1) := rfl
  have himgs : (addTags (⟨[⟨1, f1.path, f1.stem, f1.name, 0⟩], [], [], 2, 1⟩ : DB) 1 t1).images =
      [⟨1, f1.path, f1.stem, f1.name, 1⟩] := by
    rw [addTags_images]
    rfl
  have hg2 : getImageByHash
      (addTags (⟨[⟨1, f1.path, f1.stem, f1.name, 0⟩], [], [], 2, 1⟩ : DB) 1 t1)
      (getHashFromFilename f2) = some ⟨1, f1.path, f1.stem, f1.name, 1⟩ := by
    show (addTags (⟨[⟨1, f1.path, f1.stem, f1.name, 0⟩], [], [], 2, 1⟩ : DB) 1 t1).images.find?
      (fun i => i.md5_hash == f2.stem) = _
    rw [himgs, hstem]
    simp [List.find?]
  refine ⟨by rw [hp1], ?_⟩
  rw [hp1]
  show (processImage (addTags (⟨[⟨1, f1.path, f1.stem, f1.name, 0⟩], [], [], 2, 1⟩ : DB) 1 t1)
    f2 (Except.ok t2)).1 = some 1
  unfold processImage
  rw [hg2]

/-! ## Claims -/

/-- C1, counterexample: two image files with identical content but different
filename stems are registered as two distinct Image identities by
`process_image` (ids 1 and 2, two rows), because the pipeline's "content
hash" is the filename stem — so identical content is not resolved to one
identity regardless of filename, contrary to the claim. -/
theorem c1_counterexample :
    (⟨"images/a.jpg", "a", "a.jpg", 7⟩ : ImageFile).content =
      (⟨"images/b.jpg", "b", "b.jpg", 7⟩ : ImageFile).content ∧
    (processImage emptyDB ⟨"images/a.jpg", "a", "a.jpg", 7⟩ (.ok [])).1 = some 1 ∧
    (processImage (processImage emptyDB ⟨"images/a.jpg", "a", "a.jpg", 7⟩ (.ok [])).2
      ⟨"images/b.jpg", "b", "b.jpg", 7⟩ (.ok [])).1 = some 2 ∧
    (processImage (processImage emptyDB ⟨"images/a.jpg", "a", "a.jpg", 7⟩ (.ok [])).2
      ⟨"images/b.jpg", "b", "b.jpg", 7⟩ (.ok [])).2.images.length = 2 := by
  decide

/-- C1, amended: provided every file's stem equals the content hash — the
precondition the `rename_images.py` preparation step establishes by naming
each copy `md5(content).jpg` — two files with identical content processed
through `process_image` from an empty store resolve to the same Image
identity, whatever their paths and original filenames. -/
theorem c1_content_dedup (md5 : Nat → String) (f1 f2 : ImageFile)
    (t1 t2 : List String)
    (h1 : f1.stem = md5 f1.content) (h2 : f2.stem = md5 f2.content)
    (hc : f1.content = f2.content) :
    (processImage emptyDB f1 (.ok t1)).1 = some 1 ∧
      (processImage (processImage emptyDB f1 (.ok t1)).2 f2 (.ok t2)).1 = some 1 :=
  processImage_hash_named md5 f1 f2 t1 t2 h1 h2 hc

/-- Witness for `c1_content_dedup`: two concrete hash-named copies of the
same content resolve to identifier 1 both times. -/
theorem c1_witness :
    ((⟨"images/h7.jpg", "h7", "h7.jpg", 7⟩ : ImageFile).stem = (fun _ : Nat => "h7") 7) ∧
    ((⟨"elsewhere/copy.jpg", "h7", "copy.jpg", 7⟩ : ImageFile).stem = (fun _ : Nat => "h7") 7) ∧
    ((⟨"images/h7.jpg", "h7", "h7.jpg", 7⟩ : ImageFile).content =
      (⟨"elsewhere/copy.jpg", "h7", "copy.jpg", 7⟩ : ImageFile).content) ∧
    ((processImage emptyDB ⟨"images/h7.jpg", "h7", "h7.jpg", 7⟩ (.ok [("Cat")])).1 = some 1 ∧
      (processImage (processImage emptyDB ⟨"images/h7.jpg", "h7", "h7.jpg", 7⟩
          (.ok [("Cat")])).2
        ⟨"elsewhere/copy.jpg", "h7", "copy.jpg", 7⟩ (.ok [("Dog")])).1 = some 1) :=
  ⟨rfl, rfl, rfl,
    c1_content_dedup (fun _ => "h7") ⟨"images/h7.jpg", "h7", "h7.jpg", 7⟩
      ⟨"elsewhere/copy.jpg", "h7", "copy.jpg", 7⟩ [("Cat")] [("Dog")] rfl rfl rfl⟩

/-- C2, counterexample: the two distinct raw tags `red_car` and `Red Car`
both normalize to `Red Car`; `analyze_image` deduplicates raw tags before
normalizing, so `add_tags` can receive the duplicated list
`["Red Car", "Red Car"]` in one pass, after which the single stat row has
`occurrence_count = 2` while the image's `process_count = 1` — the invariant
`occurrence_count ≤ process_count` fails. -/
theorem c2_counterexample :
    normalizeTag ("red_car") = "Red Car" ∧
    normalizeTag ("Red Car") = "Red Car" ∧
    ("red_car" : String) ≠ "Red Car" ∧
    (addTags (addImage emptyDB ("p") ("h") ("n")).2 1 [("Red Car"), ("Red Car")]).images =
      [⟨1, "p", "h", "n", 1⟩] ∧
    (addTags (addImage emptyDB ("p") ("h") ("n")).2 1 [("Red Car"), ("Red Car")]).image_tags =
      [⟨1, 1, 2⟩] ∧
    ¬ StatBound (addTags (addImage emptyDB ("p") ("h") ("n")).2 1 [("Red Car"), ("Red Car")]) := by
  refine ⟨by decide, by decide, by decide, by decide, by decide, ?_⟩
  show ¬ ∀ st ∈ (addTags (addImage emptyDB ("p") ("h") ("n")).2 1
      [("Red Car"), ("Red Car")]).image_tags,
    ∃ i ∈ (addTags (addImage emptyDB ("p") ("h") ("n")).2 1
      [("Red Car"), ("Red Car")]).images,
      i.id = st.image_id ∧ st.occurrence_count ≤ i.process_count
  decide

/-- C2, amended: after any sequence of `add_image`/`add_tags` calls from an
empty store in which every `add_tags` call passes a duplicate-free tag list
for an image present in the store (so each distinct tag name is incremented
exactly once per pass — the code increments once per list element), every
ImageTagStat row satisfies `0 < occurrence_count ≤ process_count` of its
image, and the derived confidence lies in `(0, 1]`. -/
theorem c2_stat_invariant (ops : List Op) (hok : opsOK emptyDB ops) :
    ∀ st ∈ (runOps ops).image_tags,
      0 < st.occurrence_count ∧
      ∃ i ∈ (runOps ops).images, i.id = st.image_id ∧
        st.occurrence_count ≤ i.process_count ∧
        0 < (st.occurrence_count : ℚ) / (i.process_count : ℚ) ∧
        (st.occurrence_count : ℚ) / (i.process_count : ℚ) ≤ 1 := by
  obtain ⟨⟨_, _, _, _, _, _, _, _, _, hpos, _⟩, hsb⟩ := runOps_inv ops hok
  intro st hst
  obtain ⟨i, hi, hid, hle⟩ := hsb st hst
  have hopos : 0 < st.occurrence_count := hpos st hst
  have hppos : 0 < i.process_count := lt_of_lt_of_le hopos hle
  refine ⟨hopos, i, hi, hid, hle, ?_, ?_⟩
  · exact div_pos (by exact_mod_cast hopos) (by exact_mod_cast hppos)
  · rw [div_le_one (by exact_mod_cast hppos)]
    exact_mod_cast hle

/-- Witness for `c2_stat_invariant` on a concrete two-operation history. -/
theorem c2_witness :
    opsOK emptyDB [Op.img ("p") ("h") ("n"), Op.pass 1 [("Red Car")]] ∧
    (∀ st ∈ (runOps [Op.img ("p") ("h") ("n"), Op.pass 1 [("Red Car")]]).image_tags,
      0 < st.occurrence_count ∧
      ∃ i ∈ (runOps [Op.img ("p") ("h") ("n"), Op.pass 1 [("Red Car")]]).images,
        i.id = st.image_id ∧
        st.occurrence_count ≤ i.process_count ∧
        0 < (st.occurrence_count : ℚ) / (i.process_count : ℚ) ∧
        (st.occurrence_count : ℚ) / (i.process_count : ℚ) ≤ 1) :=
  ⟨by decide, c2_stat_invariant [Op.img ("p") ("h") ("n"), Op.pass 1 [("Red Car")]] (by decide)⟩

/-- C3, counterexample: the source normalizer applies no trim step — on
`"red car "` it keeps the trailing space, while the claim's
replace/title/trim sequence (`specNormalizeTag`) removes it. -/
theorem c3_counterexample :
    normalizeTag ("red car ") = "Red Car " ∧
    specNormalizeTag ("red car ") = "Red Car" ∧
    normalizeTag ("red car ") ≠ specNormalizeTag ("red car ") := by
  decide

/-- C3, amended: normalization applies exactly two steps in order — replace
each underscore with a space, then title case — with no trimming; it is a
pure function and idempotent, and `red_car`, `Red Car`, `RED_CAR` all map to
`Red Car`. -/
theorem c3_normalizer :
    (∀ s : String, normalizeTag s = pyTitle (replaceUnderscore s)) ∧
    (∀ s : String, normalizeTag (normalizeTag s) = normalizeTag s) ∧
    normalizeTag ("red_car") = "Red Car" ∧
    normalizeTag ("Red Car") = "Red Car" ∧
    normalizeTag ("RED_CAR") = "Red Car" :=
  ⟨fun _ => rfl, normalizeTag_idem, by decide, by decide, by decide⟩

/-- C4, counterexample: `get_image_tags` orders only by confidence
descending; for the two tags `b` and `a` inserted in that order with equal
confidence 1, the result lists `b` before `a` — ties are not broken by tag
name ascending as the claim states. -/
theorem c4_counterexample :
    (getImageTags (runOps [Op.img ("p") ("h") ("n"), Op.pass 1 [("b"), ("a")]]) 1).map
      TagView.name = [("b"), ("a")] ∧
    (getImageTags (runOps [Op.img ("p") ("h") ("n"), Op.pass 1 [("b"), ("a")]]) 1).map
      TagView.confidence = [1, 1] := by
  have hdb : runOps [Op.img ("p") ("h") ("n"), Op.pass 1 [("b"), ("a")]] =
      ⟨[⟨1, "p", "h", "n", 1⟩], [⟨1, "b"⟩, ⟨2, "a"⟩], [⟨1, 1, 1⟩, ⟨1, 2, 1⟩], 2, 3⟩ := by
    decide
  rw [hdb]
  have hjoin : joinedRows
      (⟨[⟨1, "p", "h", "n", 1⟩], [⟨1, "b"⟩, ⟨2, "a"⟩], [⟨1, 1, 1⟩, ⟨1, 2, 1⟩], 2, 3⟩ : DB) 1 =
      [⟨"b", 1, 1, ((1 : ℕ) : ℚ) / ((1 : ℕ) : ℚ)⟩,
       ⟨"a", 1, 1, ((1 : ℕ) : ℚ) / ((1 : ℕ) : ℚ)⟩] := rfl
  show (sortConfDesc (joinedRows _ 1)).map TagView.name = _ ∧
    (sortConfDesc (joinedRows _ 1)).map TagView.confidence = _
  rw [hjoin]
  have hq : ¬ (((1 : ℕ) : ℚ) / ((1 : ℕ) : ℚ) < ((1 : ℕ) : ℚ) / ((1 : ℕ) : ℚ)) := lt_irrefl _
  constructor
  · simp [sortConfDesc, insConfDesc, hq]
  · simp [sortConfDesc, insConfDesc, hq]

/-- C4, amended: `get_image_tags` returns the image's joined stat rows
sorted by confidence descending (adjacent confidences never increase), as a
permutation of the unsorted join; the order among equal confidences is the
stat-table scan order, not the tag name. -/
theorem c4_ranking (db : DB) (imageId : Nat) :
    (getImageTags db imageId).Pairwise (fun a b => b.confidence ≤ a.confidence) ∧
    (getImageTags db imageId).Perm (joinedRows db imageId) :=
  ⟨sortConfDesc_pairwise _, sortConfDesc_perm _⟩

/-- C5: evaluating `_extract_json_from_text` at the failing input — a
fragment containing both a literal backslash-n (which triggers the
`unicode-escape` decode) and the invalid escape `\xq` — raises
`UnicodeDecodeError` past the `except json.JSONDecodeError` clause
(modelled `.error ()`); on text with one valid and one broken fragment it
returns exactly the valid fragment's tags without raising. -/
theorem c5_extractor_uncaught :
    extractJsonFromText ("\x7b\"tags\": [\"a\\nb\\xq\"]\x7d") = .error () ∧
    collectTags ("ok \x7b\"tags\": [\"ok\"]\x7d and \x7boops\x7d tail") =
      .ok [JValue.str ("ok")] :=
  ⟨rfl, rfl⟩

/-- C6: the tags of all accepted fragments accumulate as a set union —
the result is duplicate-free and contains exactly the values occurring in
some accepted fragment's `tags` list — and on the two-fragment example the
union is exactly `{a, b, c}`. -/
theorem c6_union :
    (∀ objs : List JValue, (collectTagValues objs).Nodup) ∧
    (∀ (objs : List JValue) (t : JValue),
      t ∈ collectTagValues objs ↔ ∃ o ∈ objs, acceptsTags o = true ∧ t ∈ tagsArr o) ∧
    collectTags ("noise \x7b\"tags\":[\"a\",\"b\"]\x7d mid \x7b\"tags\":[\"b\",\"c\"]\x7d end") =
      .ok [JValue.str ("a"), JValue.str ("b"), JValue.str ("c")] :=
  ⟨collectTagValues_nodup, fun _ _ => mem_collectTagValues, rfl⟩

/-- C7: `add_tags` with an empty tag list, iterated `n` times, increments the
image's `process_count` by exactly `n` and leaves every other table — in
particular every ImageTagStat row and the tag table — unchanged; an image
processed with an empty tag set every pass ends with `process_count` equal to
the number of passes and no stat rows if it started with none. -/
theorem c7_empty_pass (d : DB) (imageId : Nat) (n : Nat) :
    (fun x => addTags x imageId []) ^[n] d =
      { d with images := d.images.map (fun i =>
          if i.id = imageId then { i with process_count := i.process_count + n } else i) } ∧
    ((fun x => addTags x imageId []) ^[n] d).image_tags = d.image_tags ∧
    ((fun x => addTags x imageId []) ^[n] d).tags = d.tags := by
  refine ⟨addTags_empty_iterate d imageId n, ?_, ?_⟩ <;>
    rw [addTags_empty_iterate d imageId n]

/-- C8, counterexample: a failed analysis on a first-seen image does not
leave the persisted state unchanged — `process_image` registers the image
before calling the analyzer, and that row (id 1, `process_count = 0`)
persists although the pass reports failure. -/
theorem c8_counterexample :
    (processImage emptyDB ⟨"p", "h", "n", 7⟩ (.error ())).1 = none ∧
    (processImage emptyDB ⟨"p", "h", "n", 7⟩ (.error ())).2 ≠ emptyDB ∧
    (processImage emptyDB ⟨"p", "h", "n", 7⟩ (.error ())).2.images =
      [⟨1, "p", "h", "n", 0⟩] := by
  decide

/-- C8, amended: when the analysis call fails, `process_image` reports a
failure outcome (`None`), increments no image's `process_count`, and writes
no tag rows and no tag statistics; the only possible state change is the
registration of a first-seen image, a new row with `process_count = 0`
created before the analyzer ran. -/
theorem c8_failure_no_accumulation (db : DB) (f : ImageFile) :
    (processImage db f (.error ())).1 = none ∧
      (processImage db f (.error ())).2.image_tags = db.image_tags ∧
      (processImage db f (.error ())).2.tags = db.tags ∧
      ((processImage db f (.error ())).2.images = db.images ∨
        ∃ row : ImageRow, (processImage db f (.error ())).2.images = db.images ++ [row] ∧
          row.process_count = 0) :=
  processImage_error db f

/-- C9, counterexample: with `"p"` already registered under hash `"h1"`,
calling `add_image` with the fresh hash `"h2"` but the same path `"p"`
returns no identifier at all (the model's `none`, an uncaught `TypeError` in
the source) and creates nothing — refuting the claim that a call with an
unregistered hash always creates a new Image and returns its identifier. -/
theorem c9_counterexample :
    (addImage (addImage emptyDB ("p") ("h1") ("n1")).2 ("p") ("h2") ("n2")).1 = none ∧
    (∀ i ∈ (addImage emptyDB ("p") ("h1") ("n1")).2.images, i.md5_hash ≠ "h2") ∧
    (addImage (addImage emptyDB ("p") ("h1") ("n1")).2 ("p") ("h2") ("n2")).2 =
      (addImage emptyDB ("p") ("h1") ("n1")).2 := by
  decide

/-- C9, amended: if an Image with the hash exists, `add_image` returns its
identifier and changes nothing; if neither the hash nor the file path is
registered, it creates a new Image with `process_count = 0` and returns the
fresh identifier; and under the schema's hash uniqueness, two calls with the
same hash (and any paths) return the same identifier and exactly one row
with that hash exists. -/
theorem c9_registry :
    (∀ (d : DB) (fp h n : String) (rec : ImageRow), getImageByHash d h = some rec →
        addImage d fp h n = (some rec.id, d)) ∧
    (∀ (d : DB) (fp h n : String), (∀ i ∈ d.images, i.md5_hash ≠ h ∧ i.file_path ≠ fp) →
        addImage d fp h n = (some d.nextImageId,
          { d with
              images := d.images ++ [⟨d.nextImageId, fp, h, n, 0⟩],
              nextImageId := d.nextImageId + 1 })) ∧
    (∀ (d : DB) (fp1 fp2 h n1 n2 : String) (i : Nat) (d1 : DB),
        (d.images.map ImageRow.md5_hash).Nodup →
        addImage d fp1 h n1 = (some i, d1) →
        addImage d1 fp2 h n2 = (some i, d1) ∧
          (d1.images.filter (fun r => r.md5_hash == h)).length = 1) :=
  ⟨addImage_existing, addImage_fresh, addImage_dedup⟩

/-- Witness for `c9_registry`: dedup on a concrete store — inserting hash
`h` and re-adding it under a different path yields identifier 1 twice and a
single row with that hash. -/
theorem c9_witness :
    (emptyDB.images.map ImageRow.md5_hash).Nodup ∧
    addImage emptyDB ("p1") ("h") ("n1") =
      (some 1, (⟨[⟨1, "p1", "h", "n1", 0⟩], [], [], 2, 1⟩ : DB)) ∧
    (addImage (⟨[⟨1, "p1", "h", "n1", 0⟩], [], [], 2, 1⟩ : DB) ("p2") ("h") ("n2") =
        (some 1, (⟨[⟨1, "p1", "h", "n1", 0⟩], [], [], 2, 1⟩ : DB)) ∧
      ((⟨[⟨1, "p1", "h", "n1", 0⟩], [], [], 2, 1⟩ : DB).images.filter
          (fun r => r.md5_hash == "h")).length = 1) :=
  ⟨by decide, by decide,
    c9_registry.2.2 emptyDB ("p1") ("p2") ("h") ("n1") ("n2") 1
      (⟨[⟨1, "p1", "h", "n1", 0⟩], [], [], 2, 1⟩ : DB) (by decide) (by decide)⟩

/-- C10: with path `"p"` registered under hash `"h1"`, calling `add_image`
with the fresh hash `"h2"` and path `"p"` has its insert silently ignored by
the `file_path` uniqueness constraint, the fallback lookup by hash finds no
row, and the call raises (`fetchone()[0]` on `None`; the model's `none`)
instead of returning an identifier. -/
theorem c10_path_conflict :
    ((addImage emptyDB ("p") ("h1") ("n1")).2.images.map ImageRow.md5_hash = [("h1")]) ∧
    ((addImage emptyDB ("p") ("h1") ("n1")).2.images.map ImageRow.file_path = [("p")]) ∧
    addImage (addImage emptyDB ("p") ("h1") ("n1")).2 ("p") ("h2") ("n2") =
      (none, (addImage emptyDB ("p") ("h1") ("n1")).2) := by
  decide

end ImageTags
